import Mathlib

/-!
Verification of the Kernel SHAP explainer (`shap/explainers/kernel.py`).

The numeric type of the embedding is `ℚ` (exact arithmetic standing for the
source's floating-point values; all decision constants of the source — the
`1e-8` enumeration tolerance, the `1e-10` coefficient cleanup threshold, the
`0.2` enumeration-fraction threshold, and the `isclose` tolerances — are
embedded as exact decimal rationals).  Coalition masks, whose entries are
exactly 0.0 or 1.0 in the source, are embedded as `List Bool`.

The external sparse-regression backends (`sklearn`'s `lars_path`,
`LassoLarsIC` and `Lasso`) are third-party library calls, not code of this
repository; they are modelled as oracle parameters (`Selectors`).  The two
pseudo-random draws of the sampler (`np.random.choice` over subset sizes and
`np.random.permutation` for subset membership) are modelled as explicit input
streams (`indSet`, `perms`), which makes every run a pure function of its
inputs.
-/

attribute [local semireducible] Rat.mul Rat.add Rat.sub Rat.inv Rat.ofScientific

/-! ## Basic list / matrix helpers -/

/-- Number of groups marked "known" in a mask (row sum of the 0/1 mask). -/
def popcnt (m : List Bool) : ℕ := m.count true

/-- `np.abs(mask - 1)` on a 0/1 vector: the bitwise complement. -/
def maskNot (m : List Bool) : List Bool := m.map (!·)

/-- The 0/1 mask of length `M` whose ones are at the indices in `inds`
(`mask[:] = 0; mask[inds] = 1.0`). -/
def maskOfInds (M : ℕ) (inds : List ℕ) : List Bool :=
  (List.range M).map (fun i => decide (i ∈ inds))

/-- Indices of the ones of a mask. -/
def trueIndices (m : List Bool) : List ℕ :=
  (List.range m.length).filter (fun i => m.getD i false)

/-- A 0/1 mask entry as the rational it is stored as in the source. -/
def boolQ (b : Bool) : ℚ := if b then 1 else 0

/-- Dot product of two vectors. -/
def dotQ (a b : List ℚ) : ℚ := (List.zipWith (· * ·) a b).sum

/-- Column `j` of a row-major matrix. -/
def colOf (A : List (List ℚ)) (j : ℕ) : List ℚ := A.map (fun r => r.getD j 0)

/-- Matrix–vector product (rows of `A` against `v`). -/
def matMulVec (A : List (List ℚ)) (v : List ℚ) : List ℚ := A.map (fun r => dotQ r v)

/-- `base` with `vals` scattered at positions `inds` (numpy fancy assignment
`base[inds] = vals`). -/
def scatterAt (base : List ℚ) (inds : List ℕ) (vals : List ℚ) : List ℚ :=
  (inds.zip vals).foldl (fun acc p => acc.set p.1 p.2) base

/-- Determinant by first-row Laplace expansion; `n` is the dimension.
Embeds the exact value that `np.linalg` computes for a square matrix. -/
def detQ : ℕ → List (List ℚ) → ℚ
  | 0, _ => 1
  | _ + 1, [] => 0
  | n + 1, r :: rs =>
    ((List.range (n + 1)).map (fun j =>
      (-1 : ℚ) ^ j * r.getD j 0 * detQ n (rs.map (fun row => row.eraseIdx j)))).sum

/-- Matrix inverse via the adjugate formula; `none` when the matrix is
singular (the source's `np.linalg.inv` raises `LinAlgError` there). -/
def matInvQ (n : ℕ) (A : List (List ℚ)) : Option (List (List ℚ)) :=
  let d := detQ n A
  if d = 0 then none
  else some ((List.range n).map (fun i => (List.range n).map (fun j =>
    (-1 : ℚ) ^ (i + j) * detQ (n - 1) ((A.eraseIdx j).map (fun row => row.eraseIdx i)) / d)))

/-- Collects a list of optional values; `none` as soon as one entry is
`none` (a raised exception anywhere aborts the whole call). -/
def optList {α : Type} : List (Option α) → Option (List α)
  | [] => some []
  | none :: _ => none
  | some a :: rest => (optList rest).map (a :: ·)

/-! ## CoalitionSampler (`explain`, lines 481–584)

`num_subset_sizes = ceil((M-1)/2)` and `num_paired_subset_sizes =
floor((M-1)/2)`; for a natural `M ≥ 1` these are `M / 2` and `(M - 1) / 2`
in truncated natural division. -/

/-- `scipy.special.binom` at natural arguments (exact value). -/
def natBinom (n k : ℕ) : ℕ := n.descFactorial k / k.factorial

/-- `binom` as the rational the source works with. -/
def binomQ (n k : ℕ) : ℚ := (natBinom n k : ℚ)

/-- The Shapley kernel size weights `(M-1)/(k(M-k))` for
`k = 1 .. num_subset_sizes`, doubled on the paired half
(`weight_vector[:num_paired_subset_sizes] *= 2`), before normalization. -/
def weightVectorRaw (M : ℕ) : List ℚ :=
  (List.range (M / 2)).map (fun i =>
    let k : ℕ := i + 1
    let base : ℚ := ((M : ℚ) - 1) / ((k : ℚ) * ((M : ℚ) - (k : ℚ)))
    if k ≤ (M - 1) / 2 then 2 * base else base)

/-- The normalized size-weight vector (`weight_vector /= np.sum(weight_vector)`). -/
def weightVector (M : ℕ) : List ℚ :=
  let raw := weightVectorRaw M
  raw.map (· / raw.sum)

/-- `itertools.combinations(range(M), k)`: all size-`k` subsets of the group
indices, each as an increasing list. -/
def subsetsOfSize (M k : ℕ) : List (List ℕ) := (List.sublistsLen k (List.range M)).reverse

/-- The rows appended during exact enumeration of subset size `k`: for every
combination its mask at weight `w = weight_vector[k-1]/binom(M,k)` (halved
when paired), immediately followed by its complement at the same weight when
`k ≤ num_paired_subset_sizes`. -/
def sizeRows (M npaired k : ℕ) (wv : List ℚ) : List (List Bool × ℚ) :=
  let w0 := wv.getD (k - 1) 0 / binomQ M k
  let w := if k ≤ npaired then w0 / 2 else w0
  (subsetsOfSize M k).flatMap (fun inds =>
    let m := maskOfInds M inds
    (m, w) :: (if k ≤ npaired then [(maskNot m, w)] else []))

/-- Result of the exact-enumeration phase. -/
structure EnumOut where
  rows : List (List Bool × ℚ)
  numFull : ℕ
  nleft : ℚ

/-- The greedy full-enumeration loop over subset sizes (lines 499–531):
size `k` is fully enumerated iff the remaining budget, weighted by the
renormalized remaining weight of that size, covers all its coalitions up to
the `1e-8` tolerance; the loop breaks at the first size that fails. -/
def enumLoop (M npaired : ℕ) (wv : List ℚ) :
    (fuel k : ℕ) → ℚ → List ℚ → List (List Bool × ℚ) → ℕ → EnumOut
  | 0, _, nleft, _, acc, nf => ⟨acc, nf, nleft⟩
  | fuel + 1, k, nleft, rwv, acc, nf =>
    let nsub : ℚ := if k ≤ npaired then 2 * binomQ M k else binomQ M k
    if nleft * rwv.getD (k - 1) 0 / nsub ≥ 1 - 1 / 100000000 then
      let nleft' := nleft - nsub
      let rwv' := if rwv.getD (k - 1) 0 < 1 then rwv.map (· / (1 - rwv.getD (k - 1) 0)) else rwv
      enumLoop M npaired wv fuel (k + 1) nleft' rwv' (acc ++ sizeRows M npaired k wv) (nf + 1)
    else ⟨acc, nf, nleft⟩

/-- The whole exact-enumeration phase starting at size 1 with the full
budget and the normalized weight vector. -/
def enumPhase (M nsamples : ℕ) : EnumOut :=
  enumLoop M ((M - 1) / 2) (weightVector M) (M / 2) 1 (nsamples : ℚ) (weightVector M) [] 0

/-- Count-level mirror of `enumLoop`: identical control flow, but it tracks
only how many rows the loop appends, so that the loop can be evaluated
without materializing the (possibly astronomically long) row list. -/
def enumLoopCount (M npaired : ℕ) (wv : List ℚ) :
    (fuel k : ℕ) → ℚ → List ℚ → ℕ → ℕ → ℕ × ℕ × ℚ
  | 0, _, nleft, _, cnt, nf => (cnt, nf, nleft)
  | fuel + 1, k, nleft, rwv, cnt, nf =>
    let nsubN : ℕ := if k ≤ npaired then 2 * natBinom M k else natBinom M k
    let nsub : ℚ := if k ≤ npaired then 2 * binomQ M k else binomQ M k
    if nleft * rwv.getD (k - 1) 0 / nsub ≥ 1 - 1 / 100000000 then
      let nleft' := nleft - nsub
      let rwv' := if rwv.getD (k - 1) 0 < 1 then rwv.map (· / (1 - rwv.getD (k - 1) 0)) else rwv
      enumLoopCount M npaired wv fuel (k + 1) nleft' rwv' (cnt + nsubN) (nf + 1)
    else (cnt, nf, nleft)

/-- The renormalized leftover size distribution handed to `np.random.choice`
(lines 539–542); its values only shape the random draw, which the embedding
receives as the explicit stream `indSet`, so only its length
`M/2 - numFull` constrains the draws. -/
def randWeightVector (M nf : ℕ) : List ℚ :=
  let wv := weightVector M
  let halved := (List.range wv.length).map (fun i =>
    if i < (M - 1) / 2 then wv.getD i 0 / 2 else wv.getD i 0)
  let rem := halved.drop nf
  rem.map (· / rem.sum)

/-- State of the random-sampling loop: the rows added so far (enumeration
rows included), the `used_masks` dictionary mapping a mask to the row index
of its first occurrence, and `samples_left`. -/
structure RandState where
  rows : List (List Bool × ℚ)
  used : List (List Bool × ℕ)
  samplesLeft : ℤ

/-- `kernelWeights[i] += 1.0`. -/
def bumpW (rows : List (List Bool × ℚ)) (i : ℕ) : List (List Bool × ℚ) :=
  match rows[i]? with
  | some (m, w) => rows.set i (m, w + 1)
  | none => rows

/-- The random-sampling loop (lines 548–578).  Each iteration consumes one
entry of `ind_set` (an index into the leftover size distribution, so the
drawn size is `ind + num_full_subsets + 1`) and one drawn permutation; a
fresh mask is appended at weight 1 together with its complement in the
paired range, and a repeated mask instead increments the weight of its first
occurrence (and of the following row — its complement — when in the paired
range). -/
def randLoop (M nf npaired : ℕ) : List ℕ → List (List ℕ) → RandState → RandState
  | [], _, st => st
  | ind :: rest, perms, st =>
    if st.samplesLeft ≤ 0 then st
    else
      let subsetSize := ind + nf + 1
      let mask := maskOfInds M ((perms.headD []).take subsetSize)
      match st.used.lookup mask with
      | none =>
        let st1 : RandState :=
          ⟨st.rows ++ [(mask, 1)], (mask, st.rows.length) :: st.used, st.samplesLeft - 1⟩
        let st2 : RandState :=
          if 0 < st1.samplesLeft ∧ subsetSize ≤ npaired then
            ⟨st1.rows ++ [(maskNot mask, 1)], st1.used, st1.samplesLeft - 1⟩
          else st1
        randLoop M nf npaired rest perms.tail st2
      | some i =>
        let st1 : RandState := ⟨bumpW st.rows i, st.used, st.samplesLeft⟩
        let st2 : RandState :=
          if 0 < st1.samplesLeft ∧ subsetSize ≤ npaired then
            ⟨bumpW st1.rows (i + 1), st1.used, st1.samplesLeft⟩
          else st1
        randLoop M nf npaired rest perms.tail st2

/-- Result of the whole sampling phase: the populated rows of the mask
matrix with their kernel weights, the number of fully enumerated sizes, and
the number of enumeration rows (`nfixed_samples`). -/
structure SampleOut where
  rows : List (List Bool × ℚ)
  numFull : ℕ
  nfixed : ℕ

/-- The whole sampling phase: exact enumeration, then — when sizes remain —
random sampling followed by the rescaling of the random-phase weights to the
leftover theoretical mass
(`kernelWeights[nfixed:] *= weight_left / kernelWeights[nfixed:].sum()`). -/
def samplePhase (M nsamples : ℕ) (indSet : List ℕ) (perms : List (List ℕ)) : SampleOut :=
  let eo := enumPhase M nsamples
  let nfixed := eo.rows.length
  if eo.numFull ≠ M / 2 then
    let st := randLoop M eo.numFull ((M - 1) / 2) indSet perms
      ⟨eo.rows, [], (nsamples : ℤ) - (nfixed : ℤ)⟩
    let weightLeft := ((weightVector M).drop eo.numFull).sum
    let randPart := st.rows.drop nfixed
    let randSum := (randPart.map Prod.snd).sum
    ⟨st.rows.take nfixed ++ randPart.map (fun p => (p.1, p.2 * (weightLeft / randSum))),
      eo.numFull, nfixed⟩
  else ⟨eo.rows, eo.numFull, nfixed⟩

/-! ## AttributionSolver (`solve`, lines 733–799) -/

/-- The information criterion passed to the `LassoLarsIC` backend. -/
inductive Crit
  | aic
  | bic
deriving DecidableEq

/-- The `l1_reg` configuration: `"auto"`, `False`/`0` (off), `"aic"`,
`"bic"`, `"num_features(r)"`, or a float alpha. -/
inductive L1Reg
  | auto
  | off
  | aic
  | bic
  | numFeatures (r : ℕ)
  | alpha (a : ℚ)
deriving DecidableEq

/-- Oracle models of the three external sparse-regression backends.  Each
receives the stacked design matrix, the stacked target and the augmentation
weights `w_aug` (the source scales design and target by `sqrt(w_aug)` before
the library call; the square root being irrational, the weights are handed
to the abstract library model unscaled, which carries the same information)
and returns the selected support. -/
structure Selectors where
  larsPath : List (List ℚ) → List ℚ → List ℚ → ℕ → List ℕ
  lassoLarsIC : List (List ℚ) → List ℚ → List ℚ → Crit → List ℕ
  lasso : List (List ℚ) → List ℚ → List ℚ → ℚ → List ℕ

/-- Which external backend a `solve` call dispatches to. -/
inductive SelCall
  | larsPath (r : ℕ)
  | lassoLarsIC (c : Crit)
  | lasso (a : ℚ)
deriving DecidableEq

/-- The backend the source's dispatch (lines 755–767) would invoke for a
given `l1_reg` (the `off` case never reaches the dispatch). -/
def callOf : L1Reg → SelCall
  | .numFeatures r => .larsPath r
  | .auto => .lassoLarsIC .aic
  | .aic => .lassoLarsIC .aic
  | .bic => .lassoLarsIC .bic
  | .alpha a => .lasso a
  | .off => .lasso 0

/-- Whether the feature-selection block runs:
`(l1_reg not in ["auto", False, 0]) or (fraction_evaluated < 0.2 and l1_reg
== "auto")` — the Python float `0.0` compares equal to `0`, so a zero alpha
counts as off. -/
def selectionRuns (l1reg : L1Reg) (fractionEvaluated : ℚ) : Bool :=
  (match l1reg with
    | .auto => false
    | .off => false
    | .alpha a => decide (a ≠ 0)
    | _ => true)
  || (decide (fractionEvaluated < 1 / 5) && decide (l1reg = L1Reg.auto))

/-- Everything observable about one `solve` call: the deprecation warning,
whether and which selection backend ran, the selected support, whether the
constrained least-squares solve was reached, the regressed coefficients, the
attribution vector before the `1e-10` cleanup, and the returned
`(phi, phi_var)` pair (`none` models the fatal `LinAlgError` on a singular
normal-equations matrix). -/
structure SolveOut where
  warned : Bool
  selRan : Bool
  selCall : Option SelCall
  support : List ℕ
  lsqRun : Bool
  wSol : List ℚ
  phiPre : List ℚ
  result : Option (List ℚ × List ℚ)

/-- The support chosen by the feature-selection block of `solve` (lines
745–767): when selection runs, the output of the dispatched external
backend on the augmented system; otherwise all of `range M`. -/
def solveNonzeroInds (link : ℚ → ℚ) (fx fnull : List ℚ) (maskMatrix : List (List Bool))
    (kernelWeights : List ℚ) (M : ℕ) (l1reg : L1Reg) (sel : Selectors)
    (fractionEvaluated : ℚ) (dim : ℕ) (ey : List (List ℚ)) : List ℕ :=
  let eyAdj := ey.map (fun row => link (row.getD dim 0) - link (fnull.getD dim 0))
  let s : List ℚ := maskMatrix.map (fun m => ((popcnt m : ℕ) : ℚ))
  let diff := link (fx.getD dim 0) - link (fnull.getD dim 0)
  let wAug := (List.zipWith (fun w si => w * ((M : ℚ) - si)) kernelWeights s)
    ++ (List.zipWith (· * ·) kernelWeights s)
  let maskAug := maskMatrix.map (fun m => m.map boolQ)
    ++ maskMatrix.map (fun m => m.map (fun b => boolQ b - 1))
  let eyAdjAug := eyAdj ++ eyAdj.map (· - diff)
  if selectionRuns l1reg fractionEvaluated then
    match callOf l1reg with
    | .larsPath r => sel.larsPath maskAug eyAdjAug wAug r
    | .lassoLarsIC c => sel.lassoLarsIC maskAug eyAdjAug wAug c
    | .lasso a => sel.lasso maskAug eyAdjAug wAug a
  else List.range M

/-- The solver (`solve`).  `fractionEvaluated = nsamples / max_samples`. -/
def solve (link : ℚ → ℚ) (fx fnull : List ℚ) (maskMatrix : List (List Bool))
    (kernelWeights : List ℚ) (M : ℕ) (l1reg : L1Reg) (sel : Selectors)
    (fractionEvaluated : ℚ) (dim : ℕ) (ey : List (List ℚ)) : SolveOut :=
  let eyAdj := ey.map (fun row => link (row.getD dim 0) - link (fnull.getD dim 0))
  let warned := decide (l1reg = L1Reg.auto)
  let selRan := selectionRuns l1reg fractionEvaluated
  let diff := link (fx.getD dim 0) - link (fnull.getD dim 0)
  let selCall : Option SelCall := if selRan then some (callOf l1reg) else none
  let nonzeroInds : List ℕ :=
    solveNonzeroInds link fx fnull maskMatrix kernelWeights M l1reg sel fractionEvaluated dim ey
  if nonzeroInds = [] then
    { warned := warned, selRan := selRan, selCall := selCall, support := nonzeroInds,
      lsqRun := false, wSol := [], phiPre := [],
      result := some (List.replicate M 0, List.replicate M 1) }
  else
    let lastI := nonzeroInds.getLastD 0
    let initI := nonzeroInds.dropLast
    let eyAdj2 := List.zipWith (fun e m => e - boolQ (m.getD lastI false) * diff) eyAdj maskMatrix
    let etmp := maskMatrix.map (fun m =>
      initI.map (fun j => boolQ (m.getD j false) - boolQ (m.getD lastI false)))
    let p := initI.length
    let tmp := List.zipWith (fun w r => r.map (w * ·)) kernelWeights etmp
    let A := (List.range p).map (fun i => (List.range p).map (fun j =>
      dotQ (colOf tmp i) (colOf etmp j)))
    match matInvQ p A with
    | none =>
      { warned := warned, selRan := selRan, selCall := selCall, support := nonzeroInds,
        lsqRun := true, wSol := [], phiPre := [], result := none }
    | some Ainv =>
      let rhs := (List.range p).map (fun i => dotQ (colOf tmp i) eyAdj2)
      let w := matMulVec Ainv rhs
      let phiPre := (scatterAt (List.replicate M 0) initI w).set lastI (diff - w.sum)
      let phi := phiPre.map (fun v => if |v| < 1 / 10000000000 then 0 else v)
      { warned := warned, selRan := selRan, selCall := selCall, support := nonzeroInds,
        lsqRun := true, wSol := w, phiPre := phiPre,
        result := some (phi, List.replicate M 1) }

/-! ## VaryingFeatureDetector, SyntheticDataBuilder, Evaluator, Explainer -/

/-- `np.isclose` with its default tolerances (`rtol=1e-5`, `atol=1e-8`);
`equal_nan` is irrelevant over exact rationals. -/
def isclose (a b : ℚ) : Bool := decide (|a - b| ≤ 1 / 100000000 + (1 / 100000) * |b|)

/-- `varying_groups` (dense path): group `i` varies iff some background row
disagrees with the instance on some column of the group, beyond the
`isclose` tolerance; returns the varying group indices in ascending order. -/
def varyingGroups (x : List ℚ) (bg : List (List ℚ)) (groups : List (List ℕ)) : List ℕ :=
  (List.range groups.length).filter (fun i =>
    bg.any (fun row => (groups.getD i []).any (fun c => !isclose (x.getD c 0) (row.getD c 0))))

/-- One synthetic row (`addsample`): the background row with the columns of
every mask-selected varying group overwritten by the instance's values. -/
def synthRow (x bgRow : List ℚ) (vfg : List (List ℕ)) (m : List Bool) : List ℚ :=
  (List.range bgRow.length).map (fun c =>
    if (List.zip m vfg).any (fun p => p.1 && p.2.contains c) then x.getD c 0 else bgRow.getD c 0)

/-- Per-mask expected model output (`run`):
`ey[i] = Σ_j f(synth_row_j)[d] * weights[j]`. -/
def eyOf (f : List ℚ → List ℚ) (bg : List (List ℚ)) (bgW : List ℚ) (x : List ℚ)
    (vfg : List (List ℕ)) (m : List Bool) (D : ℕ) : List ℚ :=
  (List.range D).map (fun d =>
    ((bg.zip bgW).map (fun p => p.2 * ((f (synthRow x p.1 vfg m)).getD d 0))).sum)

/-- `fnull = np.sum((model_null.T * weights).T, 0)`: the background-weighted
sum of the model outputs on the background rows. -/
def vecWeightedSum (rows : List (List ℚ)) (ws : List ℚ) : List ℚ :=
  (rows.zip ws).foldl (fun acc p => List.zipWith (fun a b => a + p.2 * b) acc p.1)
    (List.replicate ((rows.headD []).length) 0)

/-- `nsamples` actually used: the caller's value or the `auto` default
`2*M + 2**11`, capped at `2**M - 2` when `M ≤ 30`. -/
def effectiveNsamples (M : ℕ) (nsamplesOpt : Option ℕ) : ℕ :=
  let n0 := nsamplesOpt.getD (2 * M + 2 ^ 11)
  if M ≤ 30 ∧ n0 > 2 ^ M - 2 then 2 ^ M - 2 else n0

/-- `self.max_samples`: `2**30`, replaced by `2**M - 2` when `M ≤ 30`. -/
def maxSamplesOf (M : ℕ) : ℚ := if M ≤ 30 then (2 : ℚ) ^ M - 2 else (2 : ℚ) ^ (30 : ℕ)

/-- The `groups_size × D` all-zero attribution matrix
(`phi = np.zeros((groups_size, D))`). -/
def zeroPhi (G D : ℕ) : List (List ℚ) :=
  (List.range G).map (fun _ => (List.range D).map (fun _ => 0))

/-- The attribution matrix of the single-varying-group branch: all zero
except that row `g` carries `link(f(x)) - link(fnull)` in every output
dimension. -/
def singleGroupPhi (G D g : ℕ) (link : ℚ → ℚ) (fx fnull : List ℚ) : List (List ℚ) :=
  (List.range G).map (fun gi => (List.range D).map (fun d =>
    if gi = g then link (fx.getD d 0) - link (fnull.getD d 0) else 0))

/-- Everything observable about one `explain` call: the phi matrix
(`groups_size × D`; `none` models a propagated solver exception), and
whether the sampling machinery and the solver were exercised at all. -/
structure ExplainOut where
  phi : Option (List (List ℚ))
  didSample : Bool
  didSolve : Bool

/-- The per-instance pipeline `explain`: varying-group detection, the
degenerate `M = 0` and `M = 1` branches, and otherwise budget selection,
sampling, model evaluation and one solve per output dimension, scattered
back into the full `groups_size × D` attribution matrix. -/
def explainFull (f : List ℚ → List ℚ) (link : ℚ → ℚ) (bg : List (List ℚ)) (bgW : List ℚ)
    (groups : List (List ℕ)) (x : List ℚ) (l1reg : L1Reg) (nsamplesOpt : Option ℕ)
    (sel : Selectors) (indSet : List ℕ) (perms : List (List ℕ)) : ExplainOut :=
  let fnull := vecWeightedSum (bg.map f) bgW
  let D := fnull.length
  let fx := f x
  let vi := varyingGroups x bg groups
  let M := vi.length
  let G := groups.length
  if M = 0 then
    ⟨some (zeroPhi G D), false, false⟩
  else if M = 1 then
    ⟨some (singleGroupPhi G D (vi.headD 0) link fx fnull), false, false⟩
  else
    let nsamples := effectiveNsamples M nsamplesOpt
    let sp := samplePhase M nsamples indSet perms
    let vfg := vi.map (fun i => groups.getD i [])
    let masks := sp.rows.map Prod.fst
    let kw := sp.rows.map Prod.snd
    let ey := masks.map (fun m => eyOf f bg bgW x vfg m D)
    let frac := (nsamples : ℚ) / maxSamplesOf M
    let outs := (List.range D).map (fun d => solve link fx fnull masks kw M l1reg sel frac d ey)
    match optList (outs.map (fun o => o.result.map Prod.fst)) with
    | none => ⟨none, true, true⟩
    | some vphis =>
      ⟨some ((List.range G).map (fun g => (List.range D).map (fun d =>
          if vi.contains g then (vphis.getD d []).getD (vi.indexOf g) 0 else 0))),
        true, true⟩

/-- The value `explain` returns to its caller: only the phi matrix
(`return phi`, line 601) — the variance placeholder is dropped. -/
def explain (f : List ℚ → List ℚ) (link : ℚ → ℚ) (bg : List (List ℚ)) (bgW : List ℚ)
    (groups : List (List ℕ)) (x : List ℚ) (l1reg : L1Reg) (nsamplesOpt : Option ℕ)
    (sel : Selectors) (indSet : List ℕ) (perms : List (List ℕ)) : Option (List (List ℚ)) :=
  (explainFull f link bg bgW groups x l1reg nsamplesOpt sel indSet perms).phi

/-- Invariant of the random-sampling loop used to prove that the rows of
the mask matrix stay pairwise distinct: the stored masks are distinct, the
`used_masks` keys are exactly the random-phase base masks (whose sizes lie
strictly between the enumerated sizes and `num_subset_sizes`), and every
stored mask is an enumeration row, a recorded base, or a complement whose
base is recorded. -/
def RandInv (M nf : ℕ) (st : RandState) : Prop :=
  (st.rows.map Prod.fst).Nodup
  ∧ (∀ pr ∈ st.used, pr.1.length = M ∧ nf < popcnt pr.1 ∧ popcnt pr.1 ≤ M / 2
      ∧ pr.1 ∈ st.rows.map Prod.fst)
  ∧ (∀ m ∈ st.rows.map Prod.fst, m.length = M
      ∧ (popcnt m ≤ nf
        ∨ (popcnt m ≤ M / 2 ∧ m ∈ st.used.map Prod.fst)
        ∨ (M / 2 < popcnt m ∧ (M - popcnt m ≤ nf ∨ maskNot m ∈ st.used.map Prod.fst))))

/-- A concrete model used to exercise the pipeline: two scalar features, a
model whose value on the synthetic row `[0, 1]` sits `2e-11` below the value
forced by additivity, so that one regressed coefficient lands strictly
inside `(0, 1e-10)` and is zeroed by the cleanup step. -/
def cxModel (r : List ℚ) : List ℚ :=
  if r = [1, 1] then [1]
  else if r = [0, 1] then [1 - 2 / 100000000000]
  else [0]

/-- Selector oracle whose backends are never invoked (`l1_reg` off). -/
def cxSelectors : Selectors :=
  ⟨fun _ _ _ _ => [], fun _ _ _ _ => [], fun _ _ _ _ => []⟩

/-- Selector oracle always answering the singleton support `[0]`. -/
def oneSelectors : Selectors :=
  ⟨fun _ _ _ _ => [0], fun _ _ _ _ => [0], fun _ _ _ _ => [0]⟩

/-! ## Helper lemmas -/

theorem natBinom_eq_choose (n k : ℕ) : natBinom n k = n.choose k := by
  unfold natBinom
  rw [Nat.descFactorial_eq_factorial_mul_choose]
  exact Nat.mul_div_cancel_left _ k.factorial_pos

theorem subsetsOfSize_length (M k : ℕ) : (subsetsOfSize M k).length = natBinom M k := by
  simp [subsetsOfSize, natBinom_eq_choose]

theorem sizeRows_length (M npaired k : ℕ) (wv : List ℚ) :
    (sizeRows M npaired k wv).length = if k ≤ npaired then 2 * natBinom M k else natBinom M k := by
  unfold sizeRows
  rw [List.length_flatMap]
  by_cases h : k ≤ npaired <;>
    · simp only [h, if_true, if_false, Function.comp_def, List.length_cons, List.length_nil,
        List.map_const']
      rw [List.sum_replicate, smul_eq_mul, subsetsOfSize_length]
      omega

theorem enumLoop_spec (M npaired : ℕ) (wv : List ℚ) :
    ∀ (fuel k : ℕ) (nleft : ℚ) (rwv : List ℚ) (acc : List (List Bool × ℚ)) (nf : ℕ),
      ((enumLoop M npaired wv fuel k nleft rwv acc nf).rows.length,
        (enumLoop M npaired wv fuel k nleft rwv acc nf).numFull,
        (enumLoop M npaired wv fuel k nleft rwv acc nf).nleft)
      = enumLoopCount M npaired wv fuel k nleft rwv acc.length nf := by
  intro fuel
  induction fuel with
  | zero => intro k nleft rwv acc nf; rfl
  | succ fuel ih =>
    intro k nleft rwv acc nf
    simp only [enumLoop, enumLoopCount]
    by_cases hp : k ≤ npaired <;>
      · simp only [hp, if_true, if_false]
        split
        · rw [ih]
          have hlen : (acc ++ sizeRows M npaired k wv).length
              = acc.length + (if k ≤ npaired then 2 * natBinom M k else natBinom M k) := by
            rw [List.length_append, sizeRows_length]
          rw [hlen]
          simp [hp]
        · rfl

/-! ## Claim theorems -/

/-- **C3** (code-bug witness computation).  With `M = 31` varying groups and a
user-requested budget of `2^31 - 3` samples, the budget is not capped
(`M > 30`), yet the `1 - 1e-8` tolerance in the full-enumeration test admits
subset size 15 although only `601080389` of its `601080390` coalitions fit in
the remaining budget: the sampler emits `2^31 - 2` coalitions, strictly more
than the requested budget (in the original code this is an out-of-bounds
write into the preallocated mask matrix). -/
theorem samplePhase_budget_overrun_M31 :
    effectiveNsamples 31 (some (2 ^ 31 - 3)) = 2 ^ 31 - 3 ∧
    (samplePhase 31 (effectiveNsamples 31 (some (2 ^ 31 - 3))) [] []).rows.length = 2 ^ 31 - 2 ∧
    2 ^ 31 - 3 < 2 ^ 31 - 2 := by
  have heff : effectiveNsamples 31 (some (2 ^ 31 - 3)) = 2 ^ 31 - 3 := by decide
  have hcnt := enumLoop_spec 31 15 (weightVector 31) 15 1 ((2 ^ 31 - 3 : ℕ) : ℚ)
    (weightVector 31) [] 0
  have hval : enumLoopCount 31 15 (weightVector 31) 15 1 ((2 ^ 31 - 3 : ℕ) : ℚ)
      (weightVector 31) 0 0 = (2 ^ 31 - 2, 15, -1) := by decide
  simp only [List.length_nil] at hcnt
  rw [hval] at hcnt
  have hrows : (enumPhase 31 (2 ^ 31 - 3)).rows.length = 2 ^ 31 - 2 := by
    have := congrArg Prod.fst hcnt
    simpa [enumPhase] using this
  have hnf : (enumPhase 31 (2 ^ 31 - 3)).numFull = 15 := by
    have := congrArg (fun p => p.2.1) hcnt
    simpa [enumPhase] using this
  refine ⟨heff, ?_, by decide⟩
  rw [heff]
  have hrows' : (enumPhase 31 2147483645).rows.length = 2147483646 := by simpa using hrows
  simp only [samplePhase]
  rw [hnf]
  simp [hrows']

theorem getD_map_range {α : Type} (n : ℕ) (f : ℕ → α) (i : ℕ) (d : α) (h : i < n) :
    ((List.range n).map f).getD i d = f i := by
  rw [List.getD_eq_getElem?_getD, List.getElem?_map, List.getElem?_range h]
  rfl

theorem solve_observables (link : ℚ → ℚ) (fx fnull : List ℚ) (maskMatrix : List (List Bool))
    (kernelWeights : List ℚ) (M : ℕ) (l1reg : L1Reg) (sel : Selectors)
    (frac : ℚ) (dim : ℕ) (ey : List (List ℚ)) :
    (solve link fx fnull maskMatrix kernelWeights M l1reg sel frac dim ey).warned
        = decide (l1reg = L1Reg.auto)
    ∧ (solve link fx fnull maskMatrix kernelWeights M l1reg sel frac dim ey).selRan
        = selectionRuns l1reg frac
    ∧ (solve link fx fnull maskMatrix kernelWeights M l1reg sel frac dim ey).selCall
        = (if selectionRuns l1reg frac then some (callOf l1reg) else none) := by
  simp only [solve]
  split
  · exact ⟨rfl, rfl, rfl⟩
  · split
    · exact ⟨rfl, rfl, rfl⟩
    · exact ⟨rfl, rfl, rfl⟩

theorem selectionRuns_iff (l1reg : L1Reg) (frac : ℚ) :
    selectionRuns l1reg frac = true ↔
      (l1reg = L1Reg.aic ∨ l1reg = L1Reg.bic ∨ (∃ r, l1reg = L1Reg.numFeatures r)
        ∨ (∃ a, l1reg = L1Reg.alpha a ∧ a ≠ 0) ∨ (l1reg = L1Reg.auto ∧ frac < 1 / 5)) := by
  cases l1reg <;> simp [selectionRuns]

/-- **C7**: when the feature-selection step has run and selected an empty
support, the solver returns the all-zero length-`M` attribution vector with
the all-ones length-`M` variance placeholder, and the constrained
least-squares solve is not attempted. -/
theorem solve_empty_support (link : ℚ → ℚ) (fx fnull : List ℚ) (maskMatrix : List (List Bool))
    (kernelWeights : List ℚ) (M : ℕ) (l1reg : L1Reg) (sel : Selectors)
    (frac : ℚ) (dim : ℕ) (ey : List (List ℚ))
    (_hsel : selectionRuns l1reg frac = true)
    (hempty : solveNonzeroInds link fx fnull maskMatrix kernelWeights M l1reg sel frac dim ey
      = []) :
    (solve link fx fnull maskMatrix kernelWeights M l1reg sel frac dim ey).result
      = some (List.replicate M 0, List.replicate M 1)
    ∧ (solve link fx fnull maskMatrix kernelWeights M l1reg sel frac dim ey).lsqRun = false := by
  simp only [solve, hempty]
  simp

/-- **C8**: feature selection runs exactly when a regularization mode other
than the legacy default (`"auto"`) / off (`False`, `0`, zero alpha) is
explicitly requested, or when the mode is `"auto"` and
`fraction_evaluated < 0.2`; in the `"auto"` mode the deprecation warning is
emitted, and whenever selection runs under `"auto"` it dispatches to the
AIC-criterion sparse regression (`LassoLarsIC(criterion="aic")`). -/
theorem solve_selection_policy (link : ℚ → ℚ) (fx fnull : List ℚ) (maskMatrix : List (List Bool))
    (kernelWeights : List ℚ) (M : ℕ) (l1reg : L1Reg) (sel : Selectors)
    (frac : ℚ) (dim : ℕ) (ey : List (List ℚ)) :
    ((solve link fx fnull maskMatrix kernelWeights M l1reg sel frac dim ey).selRan = true ↔
      (l1reg = L1Reg.aic ∨ l1reg = L1Reg.bic ∨ (∃ r, l1reg = L1Reg.numFeatures r)
        ∨ (∃ a, l1reg = L1Reg.alpha a ∧ a ≠ 0) ∨ (l1reg = L1Reg.auto ∧ frac < 1 / 5)))
    ∧ (l1reg = L1Reg.auto →
        (solve link fx fnull maskMatrix kernelWeights M l1reg sel frac dim ey).warned = true)
    ∧ (l1reg = L1Reg.auto →
        (solve link fx fnull maskMatrix kernelWeights M l1reg sel frac dim ey).selRan = true →
        (solve link fx fnull maskMatrix kernelWeights M l1reg sel frac dim ey).selCall
          = some (SelCall.lassoLarsIC Crit.aic)) := by
  obtain ⟨hw, hr, hc⟩ := solve_observables link fx fnull maskMatrix kernelWeights M l1reg sel
    frac dim ey
  refine ⟨?_, ?_, ?_⟩
  · rw [hr]; exact selectionRuns_iff l1reg frac
  · intro h; rw [hw, h]; simp
  · intro h hran
    rw [hc]
    rw [hr] at hran
    rw [hran]
    simp [h, callOf]

/-- **C9**: `explain` is deterministic: the embedding exposes every source
of randomness (the size draws `indSet` and the permutation stream `perms`)
as explicit inputs, and two runs agreeing on the instance, the background,
the configuration and the pseudo-random streams produce identical output. -/
theorem explain_deterministic (f f' : List ℚ → List ℚ) (link link' : ℚ → ℚ)
    (bg bg' : List (List ℚ)) (bgW bgW' : List ℚ) (groups groups' : List (List ℕ))
    (x x' : List ℚ) (l1reg l1reg' : L1Reg) (ns ns' : Option ℕ) (sel sel' : Selectors)
    (indSet indSet' : List ℕ) (perms perms' : List (List ℕ))
    (hf : f = f') (hlink : link = link') (hbg : bg = bg') (hbgW : bgW = bgW')
    (hgroups : groups = groups') (hx : x = x') (hl1 : l1reg = l1reg') (hns : ns = ns')
    (hsel : sel = sel') (hind : indSet = indSet') (hperms : perms = perms') :
    explainFull f link bg bgW groups x l1reg ns sel indSet perms
      = explainFull f' link' bg' bgW' groups' x' l1reg' ns' sel' indSet' perms' := by
  subst hf hlink hbg hbgW hgroups hx hl1 hns hsel hind hperms
  rfl

/-- **C10**: every `(phi, phi_var)` pair the solver returns carries the
all-ones placeholder as its variance component, and `explain` hands its
caller only the phi component of the pipeline's result, discarding the
variance matrix. -/
theorem solve_variance_placeholder (link : ℚ → ℚ) (fx fnull : List ℚ)
    (maskMatrix : List (List Bool)) (kernelWeights : List ℚ) (M : ℕ) (l1reg : L1Reg)
    (sel : Selectors) (frac : ℚ) (dim : ℕ) (ey : List (List ℚ))
    (f : List ℚ → List ℚ) (link2 : ℚ → ℚ) (bg : List (List ℚ)) (bgW : List ℚ)
    (groups : List (List ℕ)) (x : List ℚ) (l1 : L1Reg) (ns : Option ℕ) (sel2 : Selectors)
    (indSet : List ℕ) (perms : List (List ℕ)) :
    (∀ pr, (solve link fx fnull maskMatrix kernelWeights M l1reg sel frac dim ey).result
        = some pr → pr.2 = List.replicate M 1)
    ∧ explain f link2 bg bgW groups x l1 ns sel2 indSet perms
        = (explainFull f link2 bg bgW groups x l1 ns sel2 indSet perms).phi := by
  constructor
  · intro pr h
    simp only [solve] at h
    split at h
    · simp only [Option.some.injEq] at h
      rw [← h]
    · split at h
      · exact absurd h (by simp)
      · simp only [Option.some.injEq] at h
        rw [← h]
  · rfl

theorem varyingGroups_mem_lt (x : List ℚ) (bg : List (List ℚ)) (groups : List (List ℕ))
    (g : ℕ) (h : g ∈ varyingGroups x bg groups) : g < groups.length := by
  unfold varyingGroups at h
  have := List.mem_of_mem_filter h
  simpa using this

/-- **C2**: the degenerate branches of `explain`.  If no feature group
varies, the returned phi matrix is identically zero; if exactly one group
`g` varies, row `g` carries `link(f(x)) − link(fnull)` in every output
dimension, every other row is zero; in both cases neither coalition
sampling nor the least-squares solve is performed. -/
theorem explain_degenerate_cases (f : List ℚ → List ℚ) (link : ℚ → ℚ) (bg : List (List ℚ))
    (bgW : List ℚ) (groups : List (List ℕ)) (x : List ℚ) (l1reg : L1Reg) (ns : Option ℕ)
    (sel : Selectors) (indSet : List ℕ) (perms : List (List ℕ)) :
    (varyingGroups x bg groups = [] →
      explainFull f link bg bgW groups x l1reg ns sel indSet perms
        = ⟨some (zeroPhi groups.length (vecWeightedSum (bg.map f) bgW).length), false, false⟩
      ∧ ∀ gi d : ℕ,
          ((zeroPhi groups.length (vecWeightedSum (bg.map f) bgW).length).getD gi []).getD d 0
            = 0)
    ∧ ∀ g : ℕ, varyingGroups x bg groups = [g] →
        explainFull f link bg bgW groups x l1reg ns sel indSet perms
          = ⟨some (singleGroupPhi groups.length (vecWeightedSum (bg.map f) bgW).length g
              link (f x) (vecWeightedSum (bg.map f) bgW)), false, false⟩
        ∧ (∀ d : ℕ, d < (vecWeightedSum (bg.map f) bgW).length →
            ((singleGroupPhi groups.length (vecWeightedSum (bg.map f) bgW).length g
                link (f x) (vecWeightedSum (bg.map f) bgW)).getD g []).getD d 0
              = link ((f x).getD d 0) - link ((vecWeightedSum (bg.map f) bgW).getD d 0))
        ∧ (∀ gi d : ℕ, gi ≠ g →
            ((singleGroupPhi groups.length (vecWeightedSum (bg.map f) bgW).length g
                link (f x) (vecWeightedSum (bg.map f) bgW)).getD gi []).getD d 0 = 0) := by
  constructor
  · intro hvi
    constructor
    · simp only [explainFull, hvi]
      rfl
    · intro gi d
      by_cases hgi : gi < groups.length
      · rw [zeroPhi, getD_map_range _ _ _ _ hgi]
        by_cases hd : d < (vecWeightedSum (bg.map f) bgW).length
        · rw [getD_map_range _ _ _ _ hd]
        · rw [List.getD_eq_default _ _ (by simpa using Nat.le_of_not_lt hd)]
      · have hrow : (zeroPhi groups.length (vecWeightedSum (bg.map f) bgW).length).getD gi []
            = [] :=
          List.getD_eq_default _ _ (by simpa [zeroPhi] using Nat.le_of_not_lt hgi)
        rw [hrow]
        simp
  · intro g hvi
    have hglt : g < groups.length :=
      varyingGroups_mem_lt x bg groups g (by rw [hvi]; exact List.mem_singleton_self g)
    refine ⟨?_, ?_, ?_⟩
    · simp only [explainFull, hvi]
      rfl
    · intro d hd
      unfold singleGroupPhi
      rw [getD_map_range _ _ _ _ hglt, getD_map_range _ _ _ _ hd]
      simp
    · intro gi d hne
      by_cases hgi : gi < groups.length
      · rw [singleGroupPhi, getD_map_range _ _ _ _ hgi]
        by_cases hd : d < (vecWeightedSum (bg.map f) bgW).length
        · rw [getD_map_range _ _ _ _ hd]
          simp [hne]
        · rw [List.getD_eq_default _ _ (by simpa using Nat.le_of_not_lt hd)]
      · have hrow : (singleGroupPhi groups.length (vecWeightedSum (bg.map f) bgW).length g
              link (f x) (vecWeightedSum (bg.map f) bgW)).getD gi [] = [] :=
          List.getD_eq_default _ _ (by simpa [singleGroupPhi] using Nat.le_of_not_lt hgi)
        rw [hrow]
        simp

theorem range_map_getD (m : List Bool) :
    (List.range m.length).map (fun i => m.getD i false) = m := by
  apply List.ext_getElem
  · simp
  · intro i h1 h2
    simp only [List.getElem_map, List.getElem_range]
    rw [List.getD_eq_getElem?_getD, List.getElem?_eq_getElem h2]
    rfl

theorem mem_trueIndices (m : List Bool) (i : ℕ) :
    i ∈ trueIndices m ↔ i < m.length ∧ m.getD i false = true := by
  simp [trueIndices, List.mem_filter, List.mem_range]

theorem maskOfInds_trueIndices (m : List Bool) :
    maskOfInds m.length (trueIndices m) = m := by
  unfold maskOfInds
  have : ∀ i ∈ List.range m.length,
      decide (i ∈ trueIndices m) = m.getD i false := by
    intro i hi
    by_cases hb : m.getD i false = true <;>
      simp [mem_trueIndices, hb, List.mem_range.mp hi]
  rw [List.map_congr_left this, range_map_getD]

theorem trueIndices_length (m : List Bool) : (trueIndices m).length = popcnt m := by
  unfold trueIndices popcnt
  rw [← List.countP_eq_length_filter]
  conv_rhs => rw [← range_map_getD m]
  rw [List.count, List.countP_map]
  apply List.countP_congr
  intro i _
  by_cases hb : m.getD i false = true <;> simp [hb]

theorem trueIndices_mem_subsetsOfSize (m : List Bool) (M : ℕ) (hlen : m.length = M) :
    trueIndices m ∈ subsetsOfSize M (popcnt m) := by
  rw [subsetsOfSize, List.mem_reverse, List.mem_sublistsLen]
  constructor
  · rw [← hlen]
    exact List.filter_sublist _
  · exact trueIndices_length m

theorem flatMap_split {α β : Type} (f : α → List β) (l : List α) (a : α) (h : a ∈ l) :
    ∃ pre post, l.flatMap f = pre ++ f a ++ post := by
  obtain ⟨s, t, rfl⟩ := List.append_of_mem h
  exact ⟨s.flatMap f, t.flatMap f, by simp⟩

theorem enumLoop_succ (M npaired : ℕ) (wv : List ℚ) (fuel k : ℕ) (nleft : ℚ)
    (rwv : List ℚ) (acc : List (List Bool × ℚ)) (nf : ℕ) :
    enumLoop M npaired wv (fuel + 1) k nleft rwv acc nf
      = if nleft * rwv.getD (k - 1) 0 / (if k ≤ npaired then 2 * binomQ M k else binomQ M k)
            ≥ 1 - 1 / 100000000 then
          enumLoop M npaired wv fuel (k + 1)
            (nleft - (if k ≤ npaired then 2 * binomQ M k else binomQ M k))
            (if rwv.getD (k - 1) 0 < 1 then rwv.map (· / (1 - rwv.getD (k - 1) 0)) else rwv)
            (acc ++ sizeRows M npaired k wv) (nf + 1)
        else ⟨acc, nf, nleft⟩ := rfl

theorem enumLoop_rows_prefix (M npaired : ℕ) (wv : List ℚ) :
    ∀ (fuel k : ℕ) (nleft : ℚ) (rwv : List ℚ) (acc : List (List Bool × ℚ)) (nf : ℕ),
      ∃ rest, (enumLoop M npaired wv fuel k nleft rwv acc nf).rows = acc ++ rest := by
  intro fuel
  induction fuel with
  | zero => intro k nleft rwv acc nf; exact ⟨[], by simp [enumLoop]⟩
  | succ fuel ih =>
    intro k nleft rwv acc nf
    rw [enumLoop_succ]
    by_cases hc : nleft * rwv.getD (k - 1) 0
        / (if k ≤ npaired then 2 * binomQ M k else binomQ M k) ≥ 1 - 1 / 100000000
    · rw [if_pos hc]
      obtain ⟨rest, hrest⟩ := ih (k + 1)
        (nleft - (if k ≤ npaired then 2 * binomQ M k else binomQ M k))
        (if rwv.getD (k - 1) 0 < 1 then rwv.map (· / (1 - rwv.getD (k - 1) 0)) else rwv)
        (acc ++ sizeRows M npaired k wv) (nf + 1)
      exact ⟨sizeRows M npaired k wv ++ rest, by rw [hrest, List.append_assoc]⟩
    · rw [if_neg hc]
      exact ⟨[], by simp⟩

theorem enumLoop_rows_segment (M npaired : ℕ) (wv : List ℚ) :
    ∀ (fuel k : ℕ) (nleft : ℚ) (rwv : List ℚ) (acc : List (List Bool × ℚ)) (nf j : ℕ),
      nf ≤ j → j < (enumLoop M npaired wv fuel k nleft rwv acc nf).numFull →
      ∃ pre post, (enumLoop M npaired wv fuel k nleft rwv acc nf).rows
        = pre ++ sizeRows M npaired (k + (j - nf)) wv ++ post := by
  intro fuel
  induction fuel with
  | zero =>
    intro k nleft rwv acc nf j hj hlt
    rw [enumLoop] at hlt
    have hlt' : j < nf := hlt
    omega
  | succ fuel ih =>
    intro k nleft rwv acc nf j hj hlt
    rw [enumLoop_succ] at hlt ⊢
    by_cases hc : nleft * rwv.getD (k - 1) 0
        / (if k ≤ npaired then 2 * binomQ M k else binomQ M k) ≥ 1 - 1 / 100000000
    · rw [if_pos hc] at hlt ⊢
      by_cases hje : j = nf
      · subst hje
        simp only [Nat.sub_self, Nat.add_zero]
        obtain ⟨rest, hrest⟩ := enumLoop_rows_prefix M npaired wv fuel (k + 1)
          (nleft - (if k ≤ npaired then 2 * binomQ M k else binomQ M k))
          (if rwv.getD (k - 1) 0 < 1 then rwv.map (· / (1 - rwv.getD (k - 1) 0)) else rwv)
          (acc ++ sizeRows M npaired k wv) (j + 1)
        rw [hrest]
        exact ⟨acc, rest, by rw [List.append_assoc]⟩
      · have hj1 : nf + 1 ≤ j := by omega
        obtain ⟨pre, post, hpp⟩ := ih (k + 1)
          (nleft - (if k ≤ npaired then 2 * binomQ M k else binomQ M k))
          (if rwv.getD (k - 1) 0 < 1 then rwv.map (· / (1 - rwv.getD (k - 1) 0)) else rwv)
          (acc ++ sizeRows M npaired k wv) (nf + 1) j hj1 hlt
        refine ⟨pre, post, ?_⟩
        rw [hpp]
        congr 3
        omega
    · rw [if_neg hc] at hlt
      have hlt' : j < nf := hlt
      omega

theorem sizeRows_pair_split (M npaired k : ℕ) (wv : List ℚ) (mask : List Bool)
    (hlen : mask.length = M) (hpc : popcnt mask = k) (hkp : k ≤ npaired) :
    ∃ pre post, sizeRows M npaired k wv
      = pre ++ (mask, wv.getD (k - 1) 0 / binomQ M k / 2)
          :: (maskNot mask, wv.getD (k - 1) 0 / binomQ M k / 2) :: post := by
  have hmem : trueIndices mask ∈ subsetsOfSize M k := by
    rw [← hpc]
    exact trueIndices_mem_subsetsOfSize mask M hlen
  have hmoi : maskOfInds M (trueIndices mask) = mask := by
    rw [← hlen]
    exact maskOfInds_trueIndices mask
  have hrw : sizeRows M npaired k wv = (subsetsOfSize M k).flatMap (fun inds =>
      [(maskOfInds M inds, wv.getD (k - 1) 0 / binomQ M k / 2),
        (maskNot (maskOfInds M inds), wv.getD (k - 1) 0 / binomQ M k / 2)]) := by
    simp [sizeRows, hkp]
  obtain ⟨pre, post, hsplit⟩ := flatMap_split
    (fun inds =>
      [(maskOfInds M inds, wv.getD (k - 1) 0 / binomQ M k / 2),
        (maskNot (maskOfInds M inds), wv.getD (k - 1) 0 / binomQ M k / 2)])
    (subsetsOfSize M k) (trueIndices mask) hmem
  rw [hmoi] at hsplit
  refine ⟨pre, post, ?_⟩
  rw [hrw, hsplit]
  simp

/-- **C4**: during exact enumeration, every coalition of a size `k` in the
paired range (`k ≤ floor((M-1)/2)`) that is fully enumerated appears in the
mask matrix immediately followed by its bitwise complement, both at the same
kernel weight `weight_vector[k-1] / binom(M,k) / 2`. -/
theorem enum_complement_pairing (M nsamples : ℕ) (mask : List Bool)
    (hlen : mask.length = M) (hk1 : 1 ≤ popcnt mask)
    (hkp : popcnt mask ≤ (M - 1) / 2)
    (hkf : popcnt mask ≤ (enumPhase M nsamples).numFull) :
    ∃ pre post, (enumPhase M nsamples).rows
      = pre ++ (mask, (weightVector M).getD (popcnt mask - 1) 0 / binomQ M (popcnt mask) / 2)
          :: (maskNot mask,
              (weightVector M).getD (popcnt mask - 1) 0 / binomQ M (popcnt mask) / 2)
          :: post := by
  have hseg := enumLoop_rows_segment M ((M - 1) / 2) (weightVector M) (M / 2) 1
    ((nsamples : ℕ) : ℚ) (weightVector M) [] 0 (popcnt mask - 1) (Nat.zero_le _)
    (by unfold enumPhase at hkf; omega)
  obtain ⟨pre, post, hpp⟩ := hseg
  have hsz : 1 + (popcnt mask - 1 - 0) = popcnt mask := by omega
  rw [hsz] at hpp
  obtain ⟨pre2, post2, hpair⟩ := sizeRows_pair_split M ((M - 1) / 2) (popcnt mask)
    (weightVector M) mask hlen rfl hkp
  unfold enumPhase
  rw [hpp, hpair]
  exact ⟨pre ++ pre2, post2 ++ post, by simp⟩

theorem sum_map_div (l : List ℚ) (c : ℚ) : (l.map (· / c)).sum = l.sum / c := by
  simp only [div_eq_mul_inv]
  simpa using List.sum_map_mul_right l id c⁻¹

theorem take_succ_sum (l : List ℚ) (n : ℕ) (h : n < l.length) :
    (l.take (n + 1)).sum = (l.take n).sum + l.getD n 0 := by
  rw [List.take_succ, List.getElem?_eq_getElem h, List.getD_eq_getElem?_getD,
    List.getElem?_eq_getElem h, Option.toList_some, List.sum_append, Option.getD_some]
  simp

theorem weightVector_length (M : ℕ) : (weightVector M).length = M / 2 := by
  simp [weightVector, weightVectorRaw]

theorem weightVectorRaw_pos (M : ℕ) (hM : 2 ≤ M) : ∀ w ∈ weightVectorRaw M, 0 < w := by
  intro w hw
  simp only [weightVectorRaw, List.mem_map, List.mem_range] at hw
  obtain ⟨i, hi, rfl⟩ := hw
  have hkM : i + 1 < M := by omega
  have h1 : (0 : ℚ) < (M : ℚ) - 1 := by
    have : (1 : ℚ) < (M : ℚ) := by exact_mod_cast hM
    linarith
  have h2 : (0 : ℚ) < ((i + 1 : ℕ) : ℚ) := by positivity
  have h3 : (0 : ℚ) < (M : ℚ) - ((i + 1 : ℕ) : ℚ) := by
    have : ((i + 1 : ℕ) : ℚ) < (M : ℚ) := by exact_mod_cast hkM
    linarith
  have hbase : (0 : ℚ) < ((M : ℚ) - 1) / (((i + 1 : ℕ) : ℚ) * ((M : ℚ) - ((i + 1 : ℕ) : ℚ))) :=
    div_pos h1 (mul_pos h2 h3)
  by_cases hp : i + 1 ≤ (M - 1) / 2 <;> simp only [hp, if_true, if_false] <;>
    push_cast at hbase ⊢ <;> linarith

theorem weightVectorRaw_sum_pos (M : ℕ) (hM : 2 ≤ M) : 0 < (weightVectorRaw M).sum := by
  apply List.sum_pos _ (weightVectorRaw_pos M hM)
  have : (weightVectorRaw M).length = M / 2 := by simp [weightVectorRaw]
  intro hnil
  rw [hnil] at this
  simp at this
  omega

theorem weightVector_pos (M : ℕ) (hM : 2 ≤ M) : ∀ w ∈ weightVector M, 0 < w := by
  intro w hw
  simp only [weightVector, List.mem_map] at hw
  obtain ⟨a, ha, rfl⟩ := hw
  exact div_pos (weightVectorRaw_pos M hM a ha) (weightVectorRaw_sum_pos M hM)

theorem weightVector_sum (M : ℕ) (hM : 2 ≤ M) : (weightVector M).sum = 1 := by
  rw [weightVector]
  rw [sum_map_div]
  exact div_self (ne_of_gt (weightVectorRaw_sum_pos M hM))

theorem weightVector_getD_pos (M : ℕ) (hM : 2 ≤ M) (i : ℕ) (hi : i < M / 2) :
    0 < (weightVector M).getD i 0 := by
  have hi' : i < (weightVector M).length := by rw [weightVector_length]; exact hi
  rw [List.getD_eq_getElem?_getD, List.getElem?_eq_getElem hi', Option.getD_some]
  exact weightVector_pos M hM _ (List.getElem_mem hi')

theorem natBinom_pos (M k : ℕ) (h : k ≤ M) : 0 < natBinom M k := by
  rw [natBinom_eq_choose]
  exact Nat.choose_pos h

theorem binomQ_pos (M k : ℕ) (h : k ≤ M) : 0 < binomQ M k := by
  have := natBinom_pos M k h
  unfold binomQ
  exact_mod_cast this

theorem sum_flatMap_const {α : Type} (l : List α) (f : α → List ℚ) (c : ℚ)
    (h : ∀ x ∈ l, (f x).sum = c) : (l.flatMap f).sum = l.length * c := by
  induction l with
  | nil => simp
  | cons a t ih =>
    rw [List.flatMap_cons, List.sum_append, h a (by simp),
      ih (fun x hx => h x (by simp [hx]))]
    simp only [List.length_cons]
    push_cast
    ring

theorem sizeRows_weight_sum (M npaired k : ℕ) (wv : List ℚ) (hkM : k ≤ M) :
    ((sizeRows M npaired k wv).map Prod.snd).sum = wv.getD (k - 1) 0 := by
  have hb : binomQ M k ≠ 0 := ne_of_gt (binomQ_pos M k hkM)
  have hnb : (natBinom M k : ℚ) = binomQ M k := rfl
  by_cases hp : k ≤ npaired
  · have hrw : sizeRows M npaired k wv = (subsetsOfSize M k).flatMap (fun inds =>
        [(maskOfInds M inds, wv.getD (k - 1) 0 / binomQ M k / 2),
          (maskNot (maskOfInds M inds), wv.getD (k - 1) 0 / binomQ M k / 2)]) := by
      simp [sizeRows, hp]
    rw [hrw, List.map_flatMap]
    rw [sum_flatMap_const _ _ (wv.getD (k - 1) 0 / binomQ M k)
      (by intro x _; simp)]
    rw [subsetsOfSize_length, hnb]
    field_simp
  · have hrw : sizeRows M npaired k wv = (subsetsOfSize M k).flatMap (fun inds =>
        [(maskOfInds M inds, wv.getD (k - 1) 0 / binomQ M k)]) := by
      simp [sizeRows, hp]
    rw [hrw, List.map_flatMap]
    rw [sum_flatMap_const _ _ (wv.getD (k - 1) 0 / binomQ M k)
      (by intro x _; simp)]
    rw [subsetsOfSize_length, hnb]
    field_simp

theorem take_set_of_le {α : Type} (a : α) (n m : ℕ) (l : List α) (h : m ≤ n) :
    (l.set n a).take m = l.take m := by
  apply List.ext_getElem (by simp)
  intro j h1 h2
  have hj : j < m := by
    have h1' := h1
    simp only [List.length_take, List.length_set] at h1'
    omega
  simp only [List.getElem_take]
  refine List.getElem_set_ne (show n ≠ j by omega) ?_

theorem bumpW_length (rows : List (List Bool × ℚ)) (i : ℕ) :
    (bumpW rows i).length = rows.length := by
  unfold bumpW
  cases h : rows[i]? with
  | none => rfl
  | some p => cases p with | mk m w => simp [List.length_set]

theorem bumpW_map_fst (rows : List (List Bool × ℚ)) (i : ℕ) :
    (bumpW rows i).map Prod.fst = rows.map Prod.fst := by
  unfold bumpW
  cases h : rows[i]? with
  | none => rfl
  | some p =>
    cases p with | mk m w =>
    apply List.ext_getElem (by simp [List.length_set])
    intro j h1 h2
    simp only [List.getElem_map]
    by_cases hij : i = j
    · subst hij
      have hi : i < rows.length := by
        have := List.getElem?_mem h
        simp only [List.length_map, List.length_set] at h1
        omega
      rw [List.getElem_set_self]
      have : rows[i] = (m, w) := by
        rw [List.getElem?_eq_getElem hi] at h
        exact (Option.some.injEq _ _).mp h
      rw [this]
    · rw [List.getElem_set_ne hij]

theorem bumpW_take (rows : List (List Bool × ℚ)) (i n : ℕ) (hni : n ≤ i) :
    (bumpW rows i).take n = rows.take n := by
  unfold bumpW
  cases h : rows[i]? with
  | none => rfl
  | some p =>
    cases p with | mk m w => exact take_set_of_le _ _ _ _ hni

theorem bumpW_snd_pos (rows : List (List Bool × ℚ)) (i : ℕ)
    (h : ∀ w ∈ rows.map Prod.snd, 0 < w) : ∀ w ∈ (bumpW rows i).map Prod.snd, 0 < w := by
  unfold bumpW
  cases hg : rows[i]? with
  | none => exact h
  | some p =>
    cases p with | mk m w =>
    intro w' hw'
    simp only [List.mem_map] at hw'
    obtain ⟨pr, hpr, rfl⟩ := hw'
    rcases List.mem_or_eq_of_mem_set hpr with hmem | heq
    · exact h _ (List.mem_map_of_mem _ hmem)
    · have hmw : (m, w) ∈ rows := List.getElem?_mem hg
      have hw := h w (List.mem_map_of_mem _ hmw)
      rw [heq]
      simp only []
      linarith

theorem sizeRows_weight_mem (M npaired k : ℕ) (wv : List ℚ) :
    ∀ w ∈ (sizeRows M npaired k wv).map Prod.snd,
      w = wv.getD (k - 1) 0 / binomQ M k / 2 ∨ w = wv.getD (k - 1) 0 / binomQ M k := by
  intro w hw
  by_cases hp : k ≤ npaired
  · have hrw : sizeRows M npaired k wv = (subsetsOfSize M k).flatMap (fun inds =>
        [(maskOfInds M inds, wv.getD (k - 1) 0 / binomQ M k / 2),
          (maskNot (maskOfInds M inds), wv.getD (k - 1) 0 / binomQ M k / 2)]) := by
      simp [sizeRows, hp]
    rw [hrw] at hw
    simp only [List.mem_map, List.mem_flatMap, List.mem_cons, List.mem_singleton,
      List.not_mem_nil, or_false] at hw
    obtain ⟨pr, ⟨inds, _, hpr⟩, rfl⟩ := hw
    rcases hpr with rfl | rfl
    · left; rfl
    · left; rfl
  · have hrw : sizeRows M npaired k wv = (subsetsOfSize M k).flatMap (fun inds =>
        [(maskOfInds M inds, wv.getD (k - 1) 0 / binomQ M k)]) := by
      simp [sizeRows, hp]
    rw [hrw] at hw
    simp only [List.mem_map, List.mem_flatMap, List.mem_singleton] at hw
    obtain ⟨pr, ⟨inds, _, hpr⟩, rfl⟩ := hw
    rcases hpr with rfl
    right; rfl

theorem enumLoop_weight_sum (M npaired : ℕ) (wv : List ℚ) (hwvlen : wv.length = M / 2) :
    ∀ (fuel k : ℕ) (nleft : ℚ) (rwv : List ℚ) (acc : List (List Bool × ℚ)) (nf : ℕ),
      k = nf + 1 → k + fuel ≤ M / 2 + 1 →
      (((enumLoop M npaired wv fuel k nleft rwv acc nf).rows.map Prod.snd).sum
          = (acc.map Prod.snd).sum
            + ((wv.take (enumLoop M npaired wv fuel k nleft rwv acc nf).numFull).sum
                - (wv.take nf).sum))
      ∧ ((∀ w ∈ acc.map Prod.snd, 0 < w) → (∀ i, i < M / 2 → 0 < wv.getD i 0) →
          ∀ w ∈ (enumLoop M npaired wv fuel k nleft rwv acc nf).rows.map Prod.snd, 0 < w) := by
  intro fuel
  induction fuel with
  | zero =>
    intro k nleft rwv acc nf hk hbound
    constructor
    · show (acc.map Prod.snd).sum = (acc.map Prod.snd).sum + ((wv.take nf).sum - (wv.take nf).sum)
      ring
    · intro hacc _ w hw
      exact hacc w hw
  | succ fuel ih =>
    intro k nleft rwv acc nf hk hbound
    rw [enumLoop_succ]
    by_cases hc : nleft * rwv.getD (k - 1) 0
        / (if k ≤ npaired then 2 * binomQ M k else binomQ M k) ≥ 1 - 1 / 100000000
    · rw [if_pos hc]
      have hkle : k ≤ M / 2 := by omega
      have hkM : k ≤ M := le_trans hkle (Nat.div_le_self M 2)
      have hnflt : nf < wv.length := by omega
      obtain ⟨ihsum, ihpos⟩ := ih (k + 1)
        (nleft - (if k ≤ npaired then 2 * binomQ M k else binomQ M k))
        (if rwv.getD (k - 1) 0 < 1 then rwv.map (· / (1 - rwv.getD (k - 1) 0)) else rwv)
        (acc ++ sizeRows M npaired k wv) (nf + 1) (by omega) (by omega)
      constructor
      · rw [ihsum]
        rw [List.map_append, List.sum_append, sizeRows_weight_sum M npaired k wv hkM]
        rw [take_succ_sum wv nf hnflt]
        have : k - 1 = nf := by omega
        rw [this]
        ring
      · intro hacc hwv
        apply ihpos _ hwv
        intro w hw
        rw [List.map_append, List.mem_append] at hw
        rcases hw with hw | hw
        · exact hacc w hw
        · rcases sizeRows_weight_mem M npaired k wv w hw with h | h <;> rw [h]
          · have h1 : 0 < wv.getD (k - 1) 0 := by
              apply hwv
              omega
            have h2 : 0 < binomQ M k := binomQ_pos M k hkM
            positivity
          · have h1 : 0 < wv.getD (k - 1) 0 := by
              apply hwv
              omega
            have h2 : 0 < binomQ M k := binomQ_pos M k hkM
            positivity
    · rw [if_neg hc]
      constructor
      · show (acc.map Prod.snd).sum = (acc.map Prod.snd).sum + ((wv.take nf).sum - (wv.take nf).sum)
        ring
      · intro hacc _ w hw
        exact hacc w hw

theorem enumPhase_weight_sum (M ns : ℕ) (hM : 2 ≤ M) :
    (((enumPhase M ns).rows.map Prod.snd).sum
      = ((weightVector M).take (enumPhase M ns).numFull).sum)
    ∧ (∀ w ∈ (enumPhase M ns).rows.map Prod.snd, 0 < w) := by
  obtain ⟨hsum, hpos⟩ := enumLoop_weight_sum M ((M - 1) / 2) (weightVector M)
    (weightVector_length M) (M / 2) 1 ((ns : ℕ) : ℚ) (weightVector M) [] 0 rfl (by omega)
  constructor
  · rw [show enumPhase M ns = enumLoop M ((M - 1) / 2) (weightVector M) (M / 2) 1
      ((ns : ℕ) : ℚ) (weightVector M) [] 0 from rfl]
    rw [hsum]
    simp
  · rw [show enumPhase M ns = enumLoop M ((M - 1) / 2) (weightVector M) (M / 2) 1
      ((ns : ℕ) : ℚ) (weightVector M) [] 0 from rfl]
    apply hpos
    · simp
    · intro i hi
      exact weightVector_getD_pos M hM i hi

theorem lookup_mem {α β : Type} [BEq α] [LawfulBEq α] (l : List (α × β)) (a : α) (b : β)
    (h : List.lookup a l = some b) : (a, b) ∈ l := by
  induction l with
  | nil => simp [List.lookup] at h
  | cons p t ih =>
    cases p with
    | mk k v =>
      rw [List.lookup] at h
      cases hbeq : a == k with
      | true =>
        rw [hbeq] at h
        simp only [Option.some.injEq] at h
        have hak : a = k := eq_of_beq hbeq
        rw [hak, ← h]
        exact List.mem_cons_self _ _
      | false =>
        rw [hbeq] at h
        exact List.mem_cons_of_mem _ (ih h)

theorem randLoop_cons (M nf npaired : ℕ) (ind : ℕ) (rest : List ℕ)
    (perms : List (List ℕ)) (st : RandState) :
    randLoop M nf npaired (ind :: rest) perms st
      = if st.samplesLeft ≤ 0 then st
        else
          match st.used.lookup (maskOfInds M ((perms.headD []).take (ind + nf + 1))) with
          | none =>
            randLoop M nf npaired rest perms.tail
              (if 0 < st.samplesLeft - 1 ∧ ind + nf + 1 ≤ npaired then
                ⟨(st.rows ++ [(maskOfInds M ((perms.headD []).take (ind + nf + 1)), 1)])
                    ++ [(maskNot (maskOfInds M ((perms.headD []).take (ind + nf + 1))), 1)],
                  (maskOfInds M ((perms.headD []).take (ind + nf + 1)), st.rows.length)
                    :: st.used,
                  st.samplesLeft - 1 - 1⟩
              else
                ⟨st.rows ++ [(maskOfInds M ((perms.headD []).take (ind + nf + 1)), 1)],
                  (maskOfInds M ((perms.headD []).take (ind + nf + 1)), st.rows.length)
                    :: st.used,
                  st.samplesLeft - 1⟩)
          | some i =>
            randLoop M nf npaired rest perms.tail
              (if 0 < st.samplesLeft ∧ ind + nf + 1 ≤ npaired then
                ⟨bumpW (bumpW st.rows i) (i + 1), st.used, st.samplesLeft⟩
              else ⟨bumpW st.rows i, st.used, st.samplesLeft⟩) := rfl

theorem randLoop_cons_none (M nf npaired ind : ℕ) (rest : List ℕ) (perms : List (List ℕ))
    (st : RandState) (hsl : ¬st.samplesLeft ≤ 0)
    (hlk : st.used.lookup (maskOfInds M ((perms.headD []).take (ind + nf + 1))) = none) :
    randLoop M nf npaired (ind :: rest) perms st
      = randLoop M nf npaired rest perms.tail
          (if 0 < st.samplesLeft - 1 ∧ ind + nf + 1 ≤ npaired then
            ⟨(st.rows ++ [(maskOfInds M ((perms.headD []).take (ind + nf + 1)), 1)])
                ++ [(maskNot (maskOfInds M ((perms.headD []).take (ind + nf + 1))), 1)],
              (maskOfInds M ((perms.headD []).take (ind + nf + 1)), st.rows.length) :: st.used,
              st.samplesLeft - 1 - 1⟩
          else
            ⟨st.rows ++ [(maskOfInds M ((perms.headD []).take (ind + nf + 1)), 1)],
              (maskOfInds M ((perms.headD []).take (ind + nf + 1)), st.rows.length) :: st.used,
              st.samplesLeft - 1⟩) := by
  rw [randLoop_cons, if_neg hsl, hlk]

theorem randLoop_cons_some (M nf npaired ind : ℕ) (rest : List ℕ) (perms : List (List ℕ))
    (st : RandState) (i : ℕ) (hsl : ¬st.samplesLeft ≤ 0)
    (hlk : st.used.lookup (maskOfInds M ((perms.headD []).take (ind + nf + 1))) = some i) :
    randLoop M nf npaired (ind :: rest) perms st
      = randLoop M nf npaired rest perms.tail
          (if 0 < st.samplesLeft ∧ ind + nf + 1 ≤ npaired then
            ⟨bumpW (bumpW st.rows i) (i + 1), st.used, st.samplesLeft⟩
          else ⟨bumpW st.rows i, st.used, st.samplesLeft⟩) := by
  rw [randLoop_cons, if_neg hsl, hlk]

theorem randLoop_take (M nf npaired n : ℕ) :
    ∀ (indSet : List ℕ) (perms : List (List ℕ)) (st : RandState),
      n ≤ st.rows.length → (∀ pr ∈ st.used, n ≤ pr.2) →
      ((randLoop M nf npaired indSet perms st).rows.take n = st.rows.take n
        ∧ n ≤ (randLoop M nf npaired indSet perms st).rows.length
        ∧ ∀ pr ∈ (randLoop M nf npaired indSet perms st).used, n ≤ pr.2) := by
  intro indSet
  induction indSet with
  | nil => intro perms st h1 h2; exact ⟨rfl, h1, h2⟩
  | cons ind rest ih =>
    intro perms st h1 h2
    by_cases hsl : st.samplesLeft ≤ 0
    · rw [randLoop_cons, if_pos hsl]; exact ⟨rfl, h1, h2⟩
    · cases hlk : st.used.lookup (maskOfInds M ((perms.headD []).take (ind + nf + 1))) with
      | none =>
        rw [randLoop_cons_none M nf npaired ind rest perms st hsl hlk]
        by_cases hcc : 0 < st.samplesLeft - 1 ∧ ind + nf + 1 ≤ npaired
        · rw [if_pos hcc]
          obtain ⟨ht, hl, hu⟩ := ih perms.tail
            ⟨(st.rows ++ [(maskOfInds M ((perms.headD []).take (ind + nf + 1)), 1)])
                ++ [(maskNot (maskOfInds M ((perms.headD []).take (ind + nf + 1))), 1)],
              (maskOfInds M ((perms.headD []).take (ind + nf + 1)), st.rows.length) :: st.used,
              st.samplesLeft - 1 - 1⟩
            (by simp only [List.length_append]; omega)
            (by
              intro pr hpr
              rcases List.mem_cons.mp hpr with rfl | hmem
              · exact h1
              · exact h2 _ hmem)
          refine ⟨?_, hl, hu⟩
          rw [ht]
          show ((st.rows ++ _) ++ _).take n = st.rows.take n
          rw [List.append_assoc, List.take_append_of_le_length h1]
        · rw [if_neg hcc]
          obtain ⟨ht, hl, hu⟩ := ih perms.tail
            ⟨st.rows ++ [(maskOfInds M ((perms.headD []).take (ind + nf + 1)), 1)],
              (maskOfInds M ((perms.headD []).take (ind + nf + 1)), st.rows.length) :: st.used,
              st.samplesLeft - 1⟩
            (by simp only [List.length_append]; omega)
            (by
              intro pr hpr
              rcases List.mem_cons.mp hpr with rfl | hmem
              · exact h1
              · exact h2 _ hmem)
          refine ⟨?_, hl, hu⟩
          rw [ht]
          show (st.rows ++ _).take n = st.rows.take n
          rw [List.take_append_of_le_length h1]
      | some i =>
        rw [randLoop_cons_some M nf npaired ind rest perms st i hsl hlk]
        have hni : n ≤ i := h2 _ (lookup_mem _ _ _ hlk)
        by_cases hcc : 0 < st.samplesLeft ∧ ind + nf + 1 ≤ npaired
        · rw [if_pos hcc]
          obtain ⟨ht, hl, hu⟩ := ih perms.tail
            ⟨bumpW (bumpW st.rows i) (i + 1), st.used, st.samplesLeft⟩
            (by rw [bumpW_length, bumpW_length]; exact h1) h2
          refine ⟨?_, hl, hu⟩
          rw [ht]
          show (bumpW (bumpW st.rows i) (i + 1)).take n = st.rows.take n
          rw [bumpW_take _ _ _ (by omega), bumpW_take _ _ _ hni]
        · rw [if_neg hcc]
          obtain ⟨ht, hl, hu⟩ := ih perms.tail
            ⟨bumpW st.rows i, st.used, st.samplesLeft⟩
            (by rw [bumpW_length]; exact h1) h2
          refine ⟨?_, hl, hu⟩
          rw [ht]
          show (bumpW st.rows i).take n = st.rows.take n
          rw [bumpW_take _ _ _ hni]

theorem randLoop_pos (M nf npaired : ℕ) :
    ∀ (indSet : List ℕ) (perms : List (List ℕ)) (st : RandState),
      (∀ w ∈ st.rows.map Prod.snd, 0 < w) →
      ∀ w ∈ (randLoop M nf npaired indSet perms st).rows.map Prod.snd, 0 < w := by
  intro indSet
  induction indSet with
  | nil => intro perms st h; exact h
  | cons ind rest ih =>
    intro perms st h
    by_cases hsl : st.samplesLeft ≤ 0
    · rw [randLoop_cons, if_pos hsl]; exact h
    · cases hlk : st.used.lookup (maskOfInds M ((perms.headD []).take (ind + nf + 1))) with
      | none =>
        rw [randLoop_cons_none M nf npaired ind rest perms st hsl hlk]
        by_cases hcc : 0 < st.samplesLeft - 1 ∧ ind + nf + 1 ≤ npaired
        · rw [if_pos hcc]
          apply ih
          intro w hw
          simp only [List.map_append, List.mem_append, List.map_cons, List.map_nil,
            List.mem_cons, List.mem_singleton, List.not_mem_nil, or_false] at hw
          rcases hw with (hw | hw) | hw
          · exact h w hw
          · rw [hw]; norm_num
          · rw [hw]; norm_num
        · rw [if_neg hcc]
          apply ih
          intro w hw
          simp only [List.map_append, List.mem_append, List.map_cons, List.map_nil,
            List.mem_cons, List.mem_singleton, List.not_mem_nil, or_false] at hw
          rcases hw with hw | hw
          · exact h w hw
          · rw [hw]; norm_num
      | some i =>
        rw [randLoop_cons_some M nf npaired ind rest perms st i hsl hlk]
        by_cases hcc : 0 < st.samplesLeft ∧ ind + nf + 1 ≤ npaired
        · rw [if_pos hcc]
          exact ih _ _ (bumpW_snd_pos _ _ (bumpW_snd_pos _ _ h))
        · rw [if_neg hcc]
          exact ih _ _ (bumpW_snd_pos _ _ h)

/-- **C6**: after the random-sampling phase has run and produced at least
one row, its kernel weights are rescaled so that their total equals the
theoretical mass left unassigned by exact enumeration — the sum of the
normalized size-weight vector over the non-enumerated sizes — while the
enumeration rows carry exactly the mass of the enumerated sizes, so the
weights of the two phases together sum to 1. -/
theorem samplePhase_weight_normalization (M nsamples : ℕ) (indSet : List ℕ)
    (perms : List (List ℕ)) (hM : 2 ≤ M)
    (hrand : (samplePhase M nsamples indSet perms).nfixed
      < (samplePhase M nsamples indSet perms).rows.length) :
    (((samplePhase M nsamples indSet perms).rows.drop
        (samplePhase M nsamples indSet perms).nfixed).map Prod.snd).sum
      = ((weightVector M).drop (samplePhase M nsamples indSet perms).numFull).sum
    ∧ (((samplePhase M nsamples indSet perms).rows.take
        (samplePhase M nsamples indSet perms).nfixed).map Prod.snd).sum
      = ((weightVector M).take (samplePhase M nsamples indSet perms).numFull).sum
    ∧ ((samplePhase M nsamples indSet perms).rows.map Prod.snd).sum = 1 := by
  by_cases hnf : (enumPhase M nsamples).numFull ≠ M / 2
  case neg =>
    exfalso
    have hsp : samplePhase M nsamples indSet perms
        = ⟨(enumPhase M nsamples).rows, (enumPhase M nsamples).numFull,
            (enumPhase M nsamples).rows.length⟩ := by
      simp only [samplePhase]
      rw [if_neg hnf]
    rw [hsp] at hrand
    exact lt_irrefl _ hrand
  case pos =>
    obtain ⟨henumsum, henumpos⟩ := enumPhase_weight_sum M nsamples hM
    obtain ⟨htake, hlen, _⟩ := randLoop_take M (enumPhase M nsamples).numFull ((M - 1) / 2)
      (enumPhase M nsamples).rows.length indSet perms
      ⟨(enumPhase M nsamples).rows, [],
        (nsamples : ℤ) - ((enumPhase M nsamples).rows.length : ℤ)⟩
      (le_refl _) (by intro pr hpr; simp at hpr)
    have hstpos : ∀ w ∈ (randLoop M (enumPhase M nsamples).numFull ((M - 1) / 2) indSet perms
        ⟨(enumPhase M nsamples).rows, [],
          (nsamples : ℤ) - ((enumPhase M nsamples).rows.length : ℤ)⟩).rows.map Prod.snd,
        0 < w :=
      randLoop_pos M (enumPhase M nsamples).numFull ((M - 1) / 2) indSet perms _ henumpos
    have htake' : (randLoop M (enumPhase M nsamples).numFull ((M - 1) / 2) indSet perms
        ⟨(enumPhase M nsamples).rows, [],
          (nsamples : ℤ) - ((enumPhase M nsamples).rows.length : ℤ)⟩).rows.take
          (enumPhase M nsamples).rows.length = (enumPhase M nsamples).rows := by
      rw [htake]
      exact List.take_length _
    have htklen : ((randLoop M (enumPhase M nsamples).numFull ((M - 1) / 2) indSet perms
        ⟨(enumPhase M nsamples).rows, [],
          (nsamples : ℤ) - ((enumPhase M nsamples).rows.length : ℤ)⟩).rows.take
          (enumPhase M nsamples).rows.length).length = (enumPhase M nsamples).rows.length := by
      rw [htake']
    have hsp : samplePhase M nsamples indSet perms
        = ⟨(randLoop M (enumPhase M nsamples).numFull ((M - 1) / 2) indSet perms
              ⟨(enumPhase M nsamples).rows, [],
                (nsamples : ℤ) - ((enumPhase M nsamples).rows.length : ℤ)⟩).rows.take
              (enumPhase M nsamples).rows.length
            ++ ((randLoop M (enumPhase M nsamples).numFull ((M - 1) / 2) indSet perms
              ⟨(enumPhase M nsamples).rows, [],
                (nsamples : ℤ) - ((enumPhase M nsamples).rows.length : ℤ)⟩).rows.drop
              (enumPhase M nsamples).rows.length).map
              (fun p => (p.1, p.2 * (((weightVector M).drop (enumPhase M nsamples).numFull).sum
                / ((((randLoop M (enumPhase M nsamples).numFull ((M - 1) / 2) indSet perms
                    ⟨(enumPhase M nsamples).rows, [],
                      (nsamples : ℤ) - ((enumPhase M nsamples).rows.length : ℤ)⟩).rows.drop
                    (enumPhase M nsamples).rows.length).map Prod.snd).sum)))),
            (enumPhase M nsamples).numFull, (enumPhase M nsamples).rows.length⟩ := by
      simp only [samplePhase]
      rw [if_pos hnf]
    rw [hsp] at hrand ⊢
    simp only [] at hrand ⊢
    rw [List.take_left' htklen, List.drop_left' htklen]
    rw [htake']
    have hdroplen : 0 < ((randLoop M (enumPhase M nsamples).numFull ((M - 1) / 2) indSet perms
        ⟨(enumPhase M nsamples).rows, [],
          (nsamples : ℤ) - ((enumPhase M nsamples).rows.length : ℤ)⟩).rows.drop
          (enumPhase M nsamples).rows.length).length := by
      rw [List.length_append, List.length_map, htklen] at hrand
      omega
    have hdroppos : ∀ w ∈ ((randLoop M (enumPhase M nsamples).numFull ((M - 1) / 2) indSet perms
        ⟨(enumPhase M nsamples).rows, [],
          (nsamples : ℤ) - ((enumPhase M nsamples).rows.length : ℤ)⟩).rows.drop
          (enumPhase M nsamples).rows.length).map Prod.snd, 0 < w := by
      intro w hw
      apply hstpos
      simp only [List.mem_map] at hw ⊢
      obtain ⟨pr, hpr, rfl⟩ := hw
      exact ⟨pr, List.drop_subset _ _ hpr, rfl⟩
    have hsumpos : 0 < (((randLoop M (enumPhase M nsamples).numFull ((M - 1) / 2) indSet perms
        ⟨(enumPhase M nsamples).rows, [],
          (nsamples : ℤ) - ((enumPhase M nsamples).rows.length : ℤ)⟩).rows.drop
          (enumPhase M nsamples).rows.length).map Prod.snd).sum := by
      apply List.sum_pos _ hdroppos
      simp only [ne_eq, List.map_eq_nil_iff]
      intro hnil
      rw [hnil] at hdroplen
      simp at hdroplen
    have hscaled : ∀ c : ℚ, ((((randLoop M (enumPhase M nsamples).numFull ((M - 1) / 2) indSet
        perms ⟨(enumPhase M nsamples).rows, [],
          (nsamples : ℤ) - ((enumPhase M nsamples).rows.length : ℤ)⟩).rows.drop
          (enumPhase M nsamples).rows.length).map (fun p => (p.1, p.2 * c))).map Prod.snd).sum
        = (((randLoop M (enumPhase M nsamples).numFull ((M - 1) / 2) indSet perms
          ⟨(enumPhase M nsamples).rows, [],
            (nsamples : ℤ) - ((enumPhase M nsamples).rows.length : ℤ)⟩).rows.drop
            (enumPhase M nsamples).rows.length).map Prod.snd).sum * c := by
      intro c
      rw [List.map_map]
      exact List.sum_map_mul_right _ Prod.snd c
    refine ⟨?_, ?_, ?_⟩
    · rw [hscaled]
      rw [mul_comm, div_mul_cancel₀ _ (ne_of_gt hsumpos)]
    · rw [henumsum]
    · rw [List.map_append, List.sum_append, henumsum, hscaled,
        mul_comm, div_mul_cancel₀ _ (ne_of_gt hsumpos)]
      rw [← List.sum_append, List.take_append_drop]
      exact weightVector_sum M hM

theorem maskOfInds_length (M : ℕ) (l : List ℕ) : (maskOfInds M l).length = M := by
  simp [maskOfInds]

theorem maskNot_length (m : List Bool) : (maskNot m).length = m.length := by
  simp [maskNot]

theorem maskNot_maskNot (m : List Bool) : maskNot (maskNot m) = m := by
  simp [maskNot, List.map_map, Function.comp_def]

theorem popcnt_maskOfInds (M : ℕ) (l : List ℕ) (hnd : l.Nodup) (hlt : ∀ e ∈ l, e < M) :
    popcnt (maskOfInds M l) = l.length := by
  unfold popcnt maskOfInds
  rw [List.count, List.countP_map]
  have hflt : (List.range M).countP ((· == true) ∘ fun i => decide (i ∈ l))
      = ((List.range M).filter (fun i => decide (i ∈ l))).length := by
    rw [← List.countP_eq_length_filter]
    apply List.countP_congr
    intro i _
    by_cases hi : i ∈ l <;> simp [hi]
  rw [hflt]
  have hperm : List.Perm ((List.range M).filter (fun i => decide (i ∈ l))) l := by
    rw [List.perm_ext_iff_of_nodup (List.Nodup.filter _ (List.nodup_range M)) hnd]
    intro a
    simp only [List.mem_filter, List.mem_range, decide_eq_true_eq]
    constructor
    · exact fun h => h.2
    · intro h
      exact ⟨hlt a h, h⟩
  exact hperm.length_eq

theorem popcnt_maskNot (m : List Bool) : popcnt (maskNot m) = m.length - popcnt m := by
  induction m with
  | nil => rfl
  | cons b t ih =>
    have hle : t.count true ≤ t.length := List.count_le_length _ _
    cases b <;> simp [popcnt, maskNot, List.count_cons] at ih ⊢ <;> omega

theorem filter_mem_of_sublist {l r : List ℕ} (hsub : List.Sublist l r) :
    r.Nodup → r.filter (fun i => decide (i ∈ l)) = l := by
  induction hsub with
  | slnil => intro _; rfl
  | cons a hsub ih =>
    rename_i l' r'
    intro hnd
    have hnr : r'.Nodup := (List.nodup_cons.mp hnd).2
    have hna : a ∉ r' := (List.nodup_cons.mp hnd).1
    have hal : a ∉ l' := fun hmem => hna (hsub.subset hmem)
    rw [List.filter_cons]
    rw [if_neg (by simpa using hal)]
    exact ih hnr
  | cons₂ a hsub ih =>
    rename_i l' r'
    intro hnd
    have hnr : r'.Nodup := (List.nodup_cons.mp hnd).2
    have hna : a ∉ r' := (List.nodup_cons.mp hnd).1
    rw [List.filter_cons]
    rw [if_pos (by simp)]
    congr 1
    have hcong : ∀ i ∈ r', (decide (i ∈ a :: l')) = (decide (i ∈ l')) := by
      intro i hi
      have hia : i ≠ a := fun he => hna (he ▸ hi)
      simp [List.mem_cons, hia]
    rw [List.filter_congr hcong]
    exact ih hnr

theorem trueIndices_maskOfInds {M : ℕ} {l : List ℕ} (hsub : List.Sublist l (List.range M)) :
    trueIndices (maskOfInds M l) = l := by
  unfold trueIndices
  rw [maskOfInds_length]
  have : ∀ i ∈ List.range M, ((maskOfInds M l).getD i false) = decide (i ∈ l) := by
    intro i hi
    unfold maskOfInds
    rw [getD_map_range _ _ _ _ (List.mem_range.mp hi)]
  rw [List.filter_congr this]
  exact filter_mem_of_sublist hsub (List.nodup_range M)

theorem maskOfInds_inj {M : ℕ} {l₁ l₂ : List ℕ} (h1 : List.Sublist l₁ (List.range M))
    (h2 : List.Sublist l₂ (List.range M)) (he : maskOfInds M l₁ = maskOfInds M l₂) : l₁ = l₂ := by
  rw [← trueIndices_maskOfInds h1, ← trueIndices_maskOfInds h2, he]

theorem mem_subsetsOfSize {M k : ℕ} {inds : List ℕ} (h : inds ∈ subsetsOfSize M k) :
    List.Sublist inds (List.range M) ∧ inds.length = k := by
  rw [subsetsOfSize, List.mem_reverse, List.mem_sublistsLen] at h
  exact h

theorem popcnt_mask_of_subsets {M k : ℕ} {inds : List ℕ} (h : inds ∈ subsetsOfSize M k) :
    popcnt (maskOfInds M inds) = k := by
  obtain ⟨hsub, hlen⟩ := mem_subsetsOfSize h
  rw [popcnt_maskOfInds M inds (hsub.nodup (List.nodup_range M))
    (fun e he => List.mem_range.mp (hsub.subset he)), hlen]

theorem subsetsOfSize_nodup (M k : ℕ) : (subsetsOfSize M k).Nodup := by
  rw [subsetsOfSize, List.nodup_reverse]
  exact List.nodup_sublistsLen k (List.nodup_range M)

theorem sizeRows_mask_mem (M npaired k : ℕ) (wv : List ℚ) (m : List Bool)
    (hm : m ∈ (sizeRows M npaired k wv).map Prod.fst) :
    m.length = M ∧ (popcnt m = k ∨ (k ≤ npaired ∧ popcnt m = M - k)) := by
  by_cases hp : k ≤ npaired
  · have hrw : sizeRows M npaired k wv = (subsetsOfSize M k).flatMap (fun inds =>
        [(maskOfInds M inds, wv.getD (k - 1) 0 / binomQ M k / 2),
          (maskNot (maskOfInds M inds), wv.getD (k - 1) 0 / binomQ M k / 2)]) := by
      simp [sizeRows, hp]
    rw [hrw] at hm
    simp only [List.map_flatMap, List.mem_flatMap, List.map_cons, List.map_nil, List.mem_cons,
      List.mem_singleton, List.not_mem_nil, or_false] at hm
    obtain ⟨inds, hinds, hm⟩ := hm
    rcases hm with rfl | rfl
    · exact ⟨maskOfInds_length M inds, Or.inl (popcnt_mask_of_subsets hinds)⟩
    · refine ⟨by rw [maskNot_length, maskOfInds_length], Or.inr ⟨hp, ?_⟩⟩
      rw [popcnt_maskNot, maskOfInds_length, popcnt_mask_of_subsets hinds]
  · have hrw : sizeRows M npaired k wv = (subsetsOfSize M k).flatMap (fun inds =>
        [(maskOfInds M inds, wv.getD (k - 1) 0 / binomQ M k)]) := by
      simp [sizeRows, hp]
    rw [hrw] at hm
    simp only [List.map_flatMap, List.mem_flatMap, List.map_cons, List.map_nil,
      List.mem_singleton] at hm
    obtain ⟨inds, hinds, rfl⟩ := hm
    exact ⟨maskOfInds_length M inds, Or.inl (popcnt_mask_of_subsets hinds)⟩

theorem sizeRows_masks_nodup (M k : ℕ) (wv : List ℚ) (hk1 : 1 ≤ k) (hkM : k ≤ M / 2) :
    ((sizeRows M ((M - 1) / 2) k wv).map Prod.fst).Nodup := by
  have hsubnd := subsetsOfSize_nodup M k
  have hmask_ne : ∀ a ∈ subsetsOfSize M k, ∀ b ∈ subsetsOfSize M k, a ≠ b →
      maskOfInds M a ≠ maskOfInds M b := by
    intro a ha b hb hne he
    exact hne (maskOfInds_inj (mem_subsetsOfSize ha).1 (mem_subsetsOfSize hb).1 he)
  by_cases hp : k ≤ (M - 1) / 2
  · have hklt : 2 * k ≤ M - 1 := by omega
    have hMk : M / 2 < M - k := by omega
    have hrw : sizeRows M ((M - 1) / 2) k wv = (subsetsOfSize M k).flatMap (fun inds =>
        [(maskOfInds M inds, wv.getD (k - 1) 0 / binomQ M k / 2),
          (maskNot (maskOfInds M inds), wv.getD (k - 1) 0 / binomQ M k / 2)]) := by
      simp [sizeRows, hp]
    have hpcb : ∀ a ∈ subsetsOfSize M k, popcnt (maskOfInds M a) = k := by
      intro a ha; exact popcnt_mask_of_subsets ha
    have hpcc : ∀ a ∈ subsetsOfSize M k, popcnt (maskNot (maskOfInds M a)) = M - k := by
      intro a ha
      rw [popcnt_maskNot, maskOfInds_length, popcnt_mask_of_subsets ha]
    rw [hrw, List.map_flatMap]
    rw [List.nodup_flatMap]
    constructor
    · intro inds hinds
      simp only [List.map_cons, List.map_nil]
      rw [List.nodup_cons]
      refine ⟨?_, List.nodup_singleton _⟩
      intro hmem
      rw [List.mem_singleton] at hmem
      have h1 := hpcb inds hinds
      have h2 := hpcc inds hinds
      rw [hmem] at h1
      omega
    · apply List.Pairwise.imp_of_mem ?_ hsubnd
      intro a b ha hb hne
      simp only [List.map_cons, List.map_nil]
      intro x hx hy
      have hxm : x = maskOfInds M a ∨ x = maskNot (maskOfInds M a) := by
        rcases List.mem_cons.mp hx with h | h
        · exact Or.inl h
        · exact Or.inr (List.mem_singleton.mp h)
      have hym : x = maskOfInds M b ∨ x = maskNot (maskOfInds M b) := by
        rcases List.mem_cons.mp hy with h | h
        · exact Or.inl h
        · exact Or.inr (List.mem_singleton.mp h)
      rcases hxm with rfl | rfl
      · rcases hym with he | he
        · exact hmask_ne a ha b hb hne he
        · have h1 := hpcb a ha
          have h2 := hpcc b hb
          rw [he, h2] at h1
          omega
      · rcases hym with he | he
        · have h1 := hpcc a ha
          have h2 := hpcb b hb
          rw [he, h2] at h1
          omega
        · have : maskOfInds M a = maskOfInds M b := by
            have := congrArg maskNot he
            rwa [maskNot_maskNot, maskNot_maskNot] at this
          exact hmask_ne a ha b hb hne this
  · have hrw : sizeRows M ((M - 1) / 2) k wv = (subsetsOfSize M k).flatMap (fun inds =>
        [(maskOfInds M inds, wv.getD (k - 1) 0 / binomQ M k)]) := by
      simp [sizeRows, hp]
    rw [hrw, List.map_flatMap]
    rw [List.nodup_flatMap]
    constructor
    · intro inds _
      simp
    · apply List.Pairwise.imp_of_mem ?_ hsubnd
      intro a b ha hb hne
      simp only [List.map_cons, List.map_nil]
      intro x hx hy
      rw [List.mem_singleton] at hx hy
      rw [hx] at hy
      exact hmask_ne a ha b hb hne hy

theorem enumLoop_numFull_le (M npaired : ℕ) (wv : List ℚ) :
    ∀ (fuel k : ℕ) (nleft : ℚ) (rwv : List ℚ) (acc : List (List Bool × ℚ)) (nf : ℕ),
      (enumLoop M npaired wv fuel k nleft rwv acc nf).numFull ≤ nf + fuel := by
  intro fuel
  induction fuel with
  | zero => intro k nleft rwv acc nf; exact le_refl _
  | succ fuel ih =>
    intro k nleft rwv acc nf
    rw [enumLoop_succ]
    by_cases hc : nleft * rwv.getD (k - 1) 0
        / (if k ≤ npaired then 2 * binomQ M k else binomQ M k) ≥ 1 - 1 / 100000000
    · rw [if_pos hc]
      have := ih (k + 1)
        (nleft - (if k ≤ npaired then 2 * binomQ M k else binomQ M k))
        (if rwv.getD (k - 1) 0 < 1 then rwv.map (· / (1 - rwv.getD (k - 1) 0)) else rwv)
        (acc ++ sizeRows M npaired k wv) (nf + 1)
      omega
    · rw [if_neg hc]
      show nf ≤ nf + (fuel + 1)
      omega

theorem enumLoop_masks_nodup (M : ℕ) (wv : List ℚ) :
    ∀ (fuel k : ℕ) (nleft : ℚ) (rwv : List ℚ) (acc : List (List Bool × ℚ)) (nf : ℕ),
      k = nf + 1 → k + fuel ≤ M / 2 + 1 →
      (acc.map Prod.fst).Nodup →
      (∀ m ∈ acc.map Prod.fst, m.length = M
        ∧ ∃ j, 1 ≤ j ∧ j ≤ nf ∧ (popcnt m = j ∨ (j ≤ (M - 1) / 2 ∧ popcnt m = M - j))) →
      (((enumLoop M ((M - 1) / 2) wv fuel k nleft rwv acc nf).rows.map Prod.fst).Nodup
      ∧ ∀ m ∈ (enumLoop M ((M - 1) / 2) wv fuel k nleft rwv acc nf).rows.map Prod.fst,
          m.length = M ∧ ∃ j, 1 ≤ j
            ∧ j ≤ (enumLoop M ((M - 1) / 2) wv fuel k nleft rwv acc nf).numFull
            ∧ (popcnt m = j ∨ (j ≤ (M - 1) / 2 ∧ popcnt m = M - j))) := by
  intro fuel
  induction fuel with
  | zero =>
    intro k nleft rwv acc nf hk hbound hnd hprof
    refine ⟨hnd, ?_⟩
    intro m hm
    obtain ⟨hlen, j, hj1, hj2, hj3⟩ := hprof m hm
    exact ⟨hlen, j, hj1, hj2, hj3⟩
  | succ fuel ih =>
    intro k nleft rwv acc nf hk hbound hnd hprof
    rw [enumLoop_succ]
    by_cases hc : nleft * rwv.getD (k - 1) 0
        / (if k ≤ (M - 1) / 2 then 2 * binomQ M k else binomQ M k) ≥ 1 - 1 / 100000000
    · rw [if_pos hc]
      have hkle : k ≤ M / 2 := by omega
      have hM2 : 2 ≤ M := by omega
      apply ih (k + 1)
        (nleft - (if k ≤ (M - 1) / 2 then 2 * binomQ M k else binomQ M k))
        (if rwv.getD (k - 1) 0 < 1 then rwv.map (· / (1 - rwv.getD (k - 1) 0)) else rwv)
        (acc ++ sizeRows M ((M - 1) / 2) k wv) (nf + 1) (by omega) (by omega)
      · rw [List.map_append]
        apply List.Nodup.append hnd (sizeRows_masks_nodup M k wv (by omega) hkle)
        intro m hma hms
        obtain ⟨_, j, hj1, hj2, hj3⟩ := hprof m hma
        obtain ⟨_, hs⟩ := sizeRows_mask_mem M ((M - 1) / 2) k wv m hms
        rcases hj3 with hj3 | ⟨hjp, hj3⟩ <;> rcases hs with hs | ⟨hkp, hs⟩ <;> omega
      · intro m hm
        rw [List.map_append, List.mem_append] at hm
        rcases hm with hm | hm
        · obtain ⟨hlen, j, hj1, hj2, hj3⟩ := hprof m hm
          exact ⟨hlen, j, hj1, by omega, hj3⟩
        · obtain ⟨hlen, hs⟩ := sizeRows_mask_mem M ((M - 1) / 2) k wv m hm
          refine ⟨hlen, k, by omega, by omega, ?_⟩
          rcases hs with hs | ⟨hkp, hs⟩
          · exact Or.inl hs
          · exact Or.inr ⟨hkp, hs⟩
    · rw [if_neg hc]
      refine ⟨hnd, ?_⟩
      intro m hm
      obtain ⟨hlen, j, hj1, hj2, hj3⟩ := hprof m hm
      exact ⟨hlen, j, hj1, hj2, hj3⟩

theorem enumPhase_masks_nodup (M ns : ℕ) :
    (((enumPhase M ns).rows.map Prod.fst).Nodup
    ∧ ∀ m ∈ (enumPhase M ns).rows.map Prod.fst,
        m.length = M ∧ ∃ j, 1 ≤ j ∧ j ≤ (enumPhase M ns).numFull
          ∧ (popcnt m = j ∨ (j ≤ (M - 1) / 2 ∧ popcnt m = M - j))) := by
  apply enumLoop_masks_nodup M (weightVector M) (M / 2) 1 ((ns : ℕ) : ℚ) (weightVector M) [] 0
    rfl (by omega) (by simp)
  intro m hm
  simp at hm

theorem enumPhase_numFull_le (M ns : ℕ) : (enumPhase M ns).numFull ≤ M / 2 := by
  have := enumLoop_numFull_le M ((M - 1) / 2) (weightVector M) (M / 2) 1 ((ns : ℕ) : ℚ)
    (weightVector M) [] 0
  simpa using this

theorem lookup_none_not_mem {α β : Type} [BEq α] [LawfulBEq α] (l : List (α × β)) (a : α)
    (h : List.lookup a l = none) : a ∉ l.map Prod.fst := by
  induction l with
  | nil => simp
  | cons p t ih =>
    cases p with
    | mk k v =>
      rw [List.lookup] at h
      cases hbeq : a == k with
      | true => rw [hbeq] at h; exact absurd h (by simp)
      | false =>
        rw [hbeq] at h
        intro hmem
        rcases List.mem_cons.mp hmem with he | hmem'
        · simp only [] at he
          rw [he] at hbeq
          simp at hbeq
        · exact ih h hmem'

theorem RandInv_rows_eq (M nf : ℕ) (st st' : RandState)
    (hr : st'.rows.map Prod.fst = st.rows.map Prod.fst) (hu : st'.used = st.used) :
    RandInv M nf st → RandInv M nf st' := by
  unfold RandInv
  rw [hr, hu]
  exact id

theorem RandInv_fresh (M nf : ℕ) (st : RandState) (mask : List Bool) (s : ℕ)
    (hInv : RandInv M nf st) (hpc : popcnt mask = s) (hs1 : nf < s) (hs2 : s ≤ M / 2)
    (hnotmem : mask ∉ st.used.map Prod.fst) : mask ∉ st.rows.map Prod.fst := by
  intro hmem
  obtain ⟨_, _, hthird⟩ := hInv
  obtain ⟨_, hcases⟩ := hthird mask hmem
  rcases hcases with hc | ⟨_, hc⟩ | ⟨hc, _⟩
  · omega
  · exact hnotmem hc
  · omega

theorem RandInv_comp_fresh (M nf : ℕ) (st : RandState) (mask : List Bool) (s : ℕ)
    (hInv : RandInv M nf st) (hlen : mask.length = M) (hpc : popcnt mask = s)
    (hs1 : nf < s) (hsp : s ≤ (M - 1) / 2) (hM : 2 ≤ M)
    (hnotmem : mask ∉ st.used.map Prod.fst) : maskNot mask ∉ st.rows.map Prod.fst := by
  intro hmem
  have hcpc : popcnt (maskNot mask) = M - s := by rw [popcnt_maskNot, hlen, hpc]
  have hclt : M / 2 < M - s := by omega
  obtain ⟨_, _, hthird⟩ := hInv
  obtain ⟨_, hcases⟩ := hthird (maskNot mask) hmem
  rcases hcases with hc | ⟨hc, _⟩ | ⟨_, hc | hc⟩
  · omega
  · omega
  · rw [hcpc] at hc
    omega
  · rw [maskNot_maskNot] at hc
    exact hnotmem hc

theorem RandInv_insert (M nf : ℕ) (st : RandState) (mask : List Bool) (s : ℕ)
    (hInv : RandInv M nf st) (hlen : mask.length = M) (hpc : popcnt mask = s)
    (hs1 : nf < s) (hs2 : s ≤ M / 2) (hnotmem : mask ∉ st.used.map Prod.fst) (sl : ℤ) :
    RandInv M nf ⟨st.rows ++ [(mask, 1)], (mask, st.rows.length) :: st.used, sl⟩ := by
  obtain ⟨hnd, hused, hthird⟩ := hInv
  have hfresh := RandInv_fresh M nf st mask s ⟨hnd, hused, hthird⟩ hpc hs1 hs2 hnotmem
  refine ⟨?_, ?_, ?_⟩
  · show ((st.rows ++ [(mask, 1)]).map Prod.fst).Nodup
    rw [List.map_append]
    apply List.Nodup.append hnd (by simp)
    intro m hma hmb
    simp only [List.map_cons, List.map_nil, List.mem_singleton] at hmb
    rw [hmb] at hma
    exact hfresh hma
  · intro pr hpr
    rcases List.mem_cons.mp hpr with rfl | hmem
    · have hpc' : popcnt (mask, st.rows.length).1 = s := hpc
      refine ⟨hlen, by omega, by omega, ?_⟩
      show mask ∈ (st.rows ++ [(mask, 1)]).map Prod.fst
      rw [List.map_append, List.mem_append]
      right
      simp
    · obtain ⟨h1, h2, h3, h4⟩ := hused pr hmem
      refine ⟨h1, h2, h3, ?_⟩
      show pr.1 ∈ (st.rows ++ [(mask, 1)]).map Prod.fst
      rw [List.map_append, List.mem_append]
      exact Or.inl h4
  · intro m hm
    rw [show (⟨st.rows ++ [(mask, 1)], (mask, st.rows.length) :: st.used, sl⟩
        : RandState).rows = st.rows ++ [(mask, 1)] from rfl, List.map_append,
      List.mem_append] at hm
    rcases hm with hm | hm
    · obtain ⟨h1, hc⟩ := hthird m hm
      refine ⟨h1, ?_⟩
      rcases hc with hc | ⟨hca, hcb⟩ | ⟨hca, hcb | hcb⟩
      · exact Or.inl hc
      · exact Or.inr (Or.inl ⟨hca, by simp [hcb]⟩)
      · exact Or.inr (Or.inr ⟨hca, Or.inl hcb⟩)
      · exact Or.inr (Or.inr ⟨hca, Or.inr (by simp [hcb])⟩)
    · simp only [List.map_cons, List.map_nil, List.mem_singleton] at hm
      rw [hm]
      refine ⟨hlen, Or.inr (Or.inl ⟨by omega, by simp⟩)⟩

theorem RandInv_insert_pair (M nf : ℕ) (st : RandState) (mask : List Bool) (s : ℕ)
    (hInv : RandInv M nf st) (hlen : mask.length = M) (hpc : popcnt mask = s)
    (hs1 : nf < s) (hsp : s ≤ (M - 1) / 2) (hM : 2 ≤ M)
    (hnotmem : mask ∉ st.used.map Prod.fst) (sl : ℤ) :
    RandInv M nf ⟨(st.rows ++ [(mask, 1)]) ++ [(maskNot mask, 1)],
      (mask, st.rows.length) :: st.used, sl⟩ := by
  have hs2 : s ≤ M / 2 := by omega
  have hcfresh := RandInv_comp_fresh M nf st mask s hInv hlen hpc hs1 hsp hM hnotmem
  have hbase := RandInv_insert M nf st mask s hInv hlen hpc hs1 hs2 hnotmem sl
  obtain ⟨hnd1, hused1, hthird1⟩ := hbase
  have hcpc : popcnt (maskNot mask) = M - s := by rw [popcnt_maskNot, hlen, hpc]
  have hclen : (maskNot mask).length = M := by rw [maskNot_length, hlen]
  have hcnotmem : maskNot mask ∉ (st.rows ++ [(mask, 1)]).map Prod.fst := by
    rw [List.map_append, List.mem_append]
    intro hmem
    rcases hmem with hmem | hmem
    · exact hcfresh hmem
    · simp only [List.map_cons, List.map_nil, List.mem_singleton] at hmem
      have : popcnt (maskNot mask) = popcnt mask := by rw [hmem]
      omega
  refine ⟨?_, ?_, ?_⟩
  · show (((st.rows ++ [(mask, 1)]) ++ [(maskNot mask, 1)]).map Prod.fst).Nodup
    rw [List.map_append]
    apply List.Nodup.append hnd1 (by simp)
    intro m hma hmb
    simp only [List.map_cons, List.map_nil, List.mem_singleton] at hmb
    rw [hmb] at hma
    exact hcnotmem hma
  · intro pr hpr
    obtain ⟨h1, h2, h3, h4⟩ := hused1 pr hpr
    refine ⟨h1, h2, h3, ?_⟩
    show pr.1 ∈ ((st.rows ++ [(mask, 1)]) ++ [(maskNot mask, 1)]).map Prod.fst
    rw [List.map_append, List.mem_append]
    exact Or.inl h4
  · intro m hm
    rw [show (⟨(st.rows ++ [(mask, 1)]) ++ [(maskNot mask, 1)],
        (mask, st.rows.length) :: st.used, sl⟩ : RandState).rows
        = (st.rows ++ [(mask, 1)]) ++ [(maskNot mask, 1)] from rfl, List.map_append,
      List.mem_append] at hm
    rcases hm with hm | hm
    · exact hthird1 m hm
    · simp only [List.map_cons, List.map_nil, List.mem_singleton] at hm
      rw [hm]
      refine ⟨hclen, Or.inr (Or.inr ⟨by omega, Or.inr ?_⟩)⟩
      rw [maskNot_maskNot]
      simp

theorem enumPhase_RandInv (M ns : ℕ) (sl : ℤ) :
    RandInv M (enumPhase M ns).numFull ⟨(enumPhase M ns).rows, [], sl⟩ := by
  obtain ⟨hnd, hprof⟩ := enumPhase_masks_nodup M ns
  refine ⟨hnd, ?_, ?_⟩
  · intro pr hpr
    simp at hpr
  · intro m hm
    obtain ⟨hlen, j, hj1, hj2, hj3⟩ := hprof m hm
    refine ⟨hlen, ?_⟩
    rcases hj3 with hj3 | ⟨hjp, hj3⟩
    · exact Or.inl (by omega)
    · exact Or.inr (Or.inr ⟨by omega, Or.inl (by omega)⟩)

theorem randLoop_nodup (M nf : ℕ) (hM : 2 ≤ M) :
    ∀ (indSet : List ℕ) (perms : List (List ℕ)) (st : RandState),
      (∀ i ∈ indSet, i < M / 2 - nf) →
      (∀ p ∈ perms, p.Nodup ∧ (∀ e ∈ p, e < M) ∧ p.length = M) →
      indSet.length ≤ perms.length →
      RandInv M nf st → RandInv M nf (randLoop M nf ((M - 1) / 2) indSet perms st) := by
  intro indSet
  induction indSet with
  | nil => intro perms st _ _ _ hInv; exact hInv
  | cons ind rest ih =>
    intro perms st hind hperm hlen hInv
    cases perms with
    | nil => simp at hlen
    | cons p ptail =>
      simp only [List.length_cons] at hlen
      have hindcur : ind < M / 2 - nf := hind ind (List.mem_cons_self _ _)
      obtain ⟨hpnd, hplt, hplen⟩ := hperm p (List.mem_cons_self _ _)
      have htknd : (p.take (ind + nf + 1)).Nodup :=
        List.Nodup.sublist (List.take_sublist (ind + nf + 1) p) hpnd
      have htklt : ∀ e ∈ p.take (ind + nf + 1), e < M :=
        fun e he => hplt e (List.mem_of_mem_take he)
      have htklen : (p.take (ind + nf + 1)).length = ind + nf + 1 := by
        rw [List.length_take]
        omega
      have hpc : popcnt (maskOfInds M (p.take (ind + nf + 1))) = ind + nf + 1 := by
        rw [popcnt_maskOfInds M _ htknd htklt, htklen]
      have hmlen : (maskOfInds M (p.take (ind + nf + 1))).length = M := maskOfInds_length M _
      have hindrest : ∀ i ∈ rest, i < M / 2 - nf := fun i hi => hind i (List.mem_cons_of_mem _ hi)
      have hpermtail : ∀ q ∈ ptail, q.Nodup ∧ (∀ e ∈ q, e < M) ∧ q.length = M :=
        fun q hq => hperm q (List.mem_cons_of_mem _ hq)
      have hlenrest : rest.length ≤ ptail.length := by omega
      by_cases hsl : st.samplesLeft ≤ 0
      · rw [randLoop_cons, if_pos hsl]
        exact hInv
      · cases hlk : st.used.lookup
            (maskOfInds M (((p :: ptail).headD []).take (ind + nf + 1))) with
        | none =>
          rw [randLoop_cons_none M nf ((M - 1) / 2) ind rest (p :: ptail) st hsl hlk]
          simp only [List.headD_cons, List.tail_cons] at hlk ⊢
          have hnotmem : maskOfInds M (p.take (ind + nf + 1)) ∉ st.used.map Prod.fst :=
            lookup_none_not_mem st.used _ hlk
          by_cases hcc : 0 < st.samplesLeft - 1 ∧ ind + nf + 1 ≤ (M - 1) / 2
          · rw [if_pos hcc]
            exact ih ptail _ hindrest hpermtail hlenrest
              (RandInv_insert_pair M nf st (maskOfInds M (p.take (ind + nf + 1)))
                (ind + nf + 1) hInv hmlen hpc (by omega) hcc.2 hM hnotmem _)
          · rw [if_neg hcc]
            exact ih ptail _ hindrest hpermtail hlenrest
              (RandInv_insert M nf st (maskOfInds M (p.take (ind + nf + 1)))
                (ind + nf + 1) hInv hmlen hpc (by omega) (by omega) hnotmem _)
        | some i =>
          rw [randLoop_cons_some M nf ((M - 1) / 2) ind rest (p :: ptail) st i hsl hlk]
          simp only [List.headD_cons, List.tail_cons]
          by_cases hcc : 0 < st.samplesLeft ∧ ind + nf + 1 ≤ (M - 1) / 2
          · rw [if_pos hcc]
            refine ih ptail _ hindrest hpermtail hlenrest
              (RandInv_rows_eq M nf st ⟨bumpW (bumpW st.rows i) (i + 1), st.used,
                st.samplesLeft⟩ ?_ rfl hInv)
            show (bumpW (bumpW st.rows i) (i + 1)).map Prod.fst = st.rows.map Prod.fst
            rw [bumpW_map_fst, bumpW_map_fst]
          · rw [if_neg hcc]
            refine ih ptail _ hindrest hpermtail hlenrest
              (RandInv_rows_eq M nf st ⟨bumpW st.rows i, st.used, st.samplesLeft⟩ ?_ rfl hInv)
            show (bumpW st.rows i).map Prod.fst = st.rows.map Prod.fst
            rw [bumpW_map_fst]

theorem sampleOut_rows_mk (a : List (List Bool × ℚ)) (b c : ℕ) :
    (SampleOut.mk a b c).rows = a := rfl

theorem map_fst_scale (l : List (List Bool × ℚ)) (c : ℚ) :
    (l.map (fun p => (p.1, p.2 * c))).map Prod.fst = l.map Prod.fst := by
  rw [List.map_map]
  exact List.map_congr_left (fun a _ => rfl)

/-- **C5**: at the end of the sampling phase the rows of the mask matrix are
pairwise distinct — a randomly drawn mask that duplicates an earlier row is
never stored as a new row; instead the dedup branch of the random loop bumps
the kernel weight of the first occurrence (and of the following row, its
complement, when the drawn size is in the paired range). -/
theorem samplePhase_masks_nodup (M nsamples : ℕ) (indSet : List ℕ) (perms : List (List ℕ))
    (hM : 2 ≤ M)
    (hind : ∀ i ∈ indSet, i < M / 2 - (enumPhase M nsamples).numFull)
    (hperm : ∀ p ∈ perms, p.Nodup ∧ (∀ e ∈ p, e < M) ∧ p.length = M)
    (hlen : indSet.length ≤ perms.length) :
    ((samplePhase M nsamples indSet perms).rows.map Prod.fst).Nodup
    ∧ ∀ (nf npaired ind : ℕ) (rest : List ℕ) (perms' : List (List ℕ)) (st : RandState)
        (i : ℕ), ¬st.samplesLeft ≤ 0 →
        st.used.lookup (maskOfInds M ((perms'.headD []).take (ind + nf + 1))) = some i →
        randLoop M nf npaired (ind :: rest) perms' st
          = randLoop M nf npaired rest perms'.tail
              (if 0 < st.samplesLeft ∧ ind + nf + 1 ≤ npaired then
                ⟨bumpW (bumpW st.rows i) (i + 1), st.used, st.samplesLeft⟩
              else ⟨bumpW st.rows i, st.used, st.samplesLeft⟩) := by
  refine ⟨?_, fun nf npaired ind rest perms' st i hsl hlk =>
    randLoop_cons_some M nf npaired ind rest perms' st i hsl hlk⟩
  by_cases hnf : (enumPhase M nsamples).numFull ≠ M / 2
  case neg =>
    have hsp : samplePhase M nsamples indSet perms
        = ⟨(enumPhase M nsamples).rows, (enumPhase M nsamples).numFull,
            (enumPhase M nsamples).rows.length⟩ := by
      simp only [samplePhase]
      rw [if_neg hnf]
    rw [hsp]
    exact (enumPhase_masks_nodup M nsamples).1
  case pos =>
    obtain ⟨htake, hrlen, _⟩ := randLoop_take M (enumPhase M nsamples).numFull ((M - 1) / 2)
      (enumPhase M nsamples).rows.length indSet perms
      ⟨(enumPhase M nsamples).rows, [],
        (nsamples : ℤ) - ((enumPhase M nsamples).rows.length : ℤ)⟩
      (le_refl _) (by intro pr hpr; simp at hpr)
    have hInv := randLoop_nodup M (enumPhase M nsamples).numFull hM indSet perms
      ⟨(enumPhase M nsamples).rows, [],
        (nsamples : ℤ) - ((enumPhase M nsamples).rows.length : ℤ)⟩
      hind hperm hlen (enumPhase_RandInv M nsamples _)
    have hsp : samplePhase M nsamples indSet perms
        = ⟨(randLoop M (enumPhase M nsamples).numFull ((M - 1) / 2) indSet perms
              ⟨(enumPhase M nsamples).rows, [],
                (nsamples : ℤ) - ((enumPhase M nsamples).rows.length : ℤ)⟩).rows.take
              (enumPhase M nsamples).rows.length
            ++ ((randLoop M (enumPhase M nsamples).numFull ((M - 1) / 2) indSet perms
              ⟨(enumPhase M nsamples).rows, [],
                (nsamples : ℤ) - ((enumPhase M nsamples).rows.length : ℤ)⟩).rows.drop
              (enumPhase M nsamples).rows.length).map
              (fun p => (p.1, p.2 * (((weightVector M).drop (enumPhase M nsamples).numFull).sum
                / ((((randLoop M (enumPhase M nsamples).numFull ((M - 1) / 2) indSet perms
                    ⟨(enumPhase M nsamples).rows, [],
                      (nsamples : ℤ) - ((enumPhase M nsamples).rows.length : ℤ)⟩).rows.drop
                    (enumPhase M nsamples).rows.length).map Prod.snd).sum)))),
            (enumPhase M nsamples).numFull, (enumPhase M nsamples).rows.length⟩ := by
      simp only [samplePhase]
      rw [if_pos hnf]
    rw [hsp, sampleOut_rows_mk, List.map_append, map_fst_scale, ← List.map_append,
      List.take_append_drop]
    exact hInv.1

theorem getD_of_lt (l : List ℚ) (j : ℕ) (h : j < l.length) : l.getD j 0 = l[j] := by
  rw [List.getD_eq_getElem?_getD, List.getElem?_eq_getElem h, Option.getD_some]

theorem sum_set_eq (l : List ℚ) :
    ∀ (i : ℕ), i < l.length → ∀ v : ℚ, (l.set i v).sum = l.sum - l.getD i 0 + v := by
  induction l with
  | nil => intro i hi; simp at hi
  | cons hd tl ih =>
    intro i hi v
    cases i with
    | zero =>
      simp only [List.set_cons_zero, List.sum_cons, List.getD_cons_zero]
      ring
    | succ n =>
      simp only [List.set_cons_succ, List.sum_cons, List.getD_cons_succ]
      rw [ih n (by simpa using hi) v]
      ring

theorem getD_set_self_q (l : List ℚ) (i : ℕ) (h : i < l.length) (v : ℚ) :
    (l.set i v).getD i 0 = v := by
  rw [getD_of_lt _ _ (by rw [List.length_set]; exact h)]
  exact List.getElem_set_self _

theorem getD_set_ne_q (l : List ℚ) (i j : ℕ) (hij : i ≠ j) (v : ℚ) :
    (l.set i v).getD j 0 = l.getD j 0 := by
  by_cases hj : j < l.length
  · rw [getD_of_lt _ _ (by rw [List.length_set]; exact hj), getD_of_lt _ _ hj]
    exact List.getElem_set_ne hij _
  · have h1 : l.length ≤ j := by omega
    rw [List.getD_eq_getElem?_getD, List.getD_eq_getElem?_getD,
      List.getElem?_eq_none (by rw [List.length_set]; exact h1), List.getElem?_eq_none h1]

theorem scatterAt_cons_eq (base : List ℚ) (i : ℕ) (is : List ℕ) (v : ℚ) (vs : List ℚ) :
    scatterAt base (i :: is) (v :: vs) = scatterAt (base.set i v) is vs := rfl

theorem scatter_spec :
    ∀ (inds : List ℕ) (vals : List ℚ) (base : List ℚ),
      inds.Nodup → (∀ j ∈ inds, j < base.length ∧ base.getD j 0 = 0) →
      vals.length = inds.length →
      ((scatterAt base inds vals).length = base.length
        ∧ (scatterAt base inds vals).sum = base.sum + vals.sum
        ∧ ∀ j, j ∉ inds → (scatterAt base inds vals).getD j 0 = base.getD j 0) := by
  intro inds
  induction inds with
  | nil =>
    intro vals base _ _ hlen
    have hv : vals = [] := List.length_eq_zero.mp (by simpa using hlen)
    subst hv
    exact ⟨rfl, by simp [scatterAt], fun j _ => rfl⟩
  | cons i is ih =>
    intro vals base hnd hins hlen
    cases vals with
    | nil => simp at hlen
    | cons v vs =>
      rw [scatterAt_cons_eq]
      have hnotin : i ∉ is := (List.nodup_cons.mp hnd).1
      have hndis : is.Nodup := (List.nodup_cons.mp hnd).2
      obtain ⟨hilt, hizero⟩ := hins i (List.mem_cons_self _ _)
      obtain ⟨hl, hs, hu⟩ := ih vs (base.set i v) hndis
        (by
          intro j hj
          refine ⟨by rw [List.length_set]; exact (hins j (List.mem_cons_of_mem _ hj)).1, ?_⟩
          rw [getD_set_ne_q base i j (fun he => hnotin (he ▸ hj)) v]
          exact (hins j (List.mem_cons_of_mem _ hj)).2)
        (by simpa using hlen)
      refine ⟨by rw [hl, List.length_set], ?_, ?_⟩
      · rw [hs, sum_set_eq base i hilt v, hizero]
        simp only [List.sum_cons]
        ring
      · intro j hj
        have hji : i ≠ j := fun he => hj (he ▸ List.mem_cons_self _ _)
        have hjis : j ∉ is := fun hm => hj (List.mem_cons_of_mem _ hm)
        rw [hu j hjis, getD_set_ne_q base i j hji v]

theorem cleanup_sum_bound (ε : ℚ) (hε : 0 ≤ ε) :
    ∀ (l : List ℚ),
      |(l.map (fun v => if |v| < ε then 0 else v)).sum - l.sum| ≤ (l.length : ℚ) * ε := by
  intro l
  induction l with
  | nil => simp
  | cons hd tl ih =>
    simp only [List.map_cons, List.sum_cons, List.length_cons]
    have hstep : |(if |hd| < ε then 0 else hd) - hd| ≤ ε := by
      by_cases h : |hd| < ε
      · rw [if_pos h, zero_sub, abs_neg]
        linarith
      · rw [if_neg h, sub_self, abs_zero]
        exact hε
    have hsplit : ((if |hd| < ε then 0 else hd) + (tl.map (fun v => if |v| < ε then 0 else v)).sum)
        - (hd + tl.sum)
        = ((if |hd| < ε then 0 else hd) - hd)
          + ((tl.map (fun v => if |v| < ε then 0 else v)).sum - tl.sum) := by ring
    rw [hsplit]
    refine le_trans (abs_add _ _) ?_
    push_cast
    linarith

theorem getLastD_mem (l : List ℕ) (hl : l ≠ []) (d : ℕ) : l.getLastD d ∈ l := by
  induction l generalizing d with
  | nil => exact absurd rfl hl
  | cons a t ih =>
    rw [List.getLastD_cons]
    cases t with
    | nil => simp
    | cons b u => exact List.mem_cons_of_mem _ (ih (by simp) a)

theorem getLastD_eq_getLast (l : List ℕ) (hl : l ≠ []) (d : ℕ) :
    l.getLastD d = l.getLast hl := by
  induction l generalizing d with
  | nil => exact absurd rfl hl
  | cons a t ih =>
    rw [List.getLastD_cons]
    cases t with
    | nil => simp [List.getLast]
    | cons b u =>
      rw [ih (by simp) a]
      exact (List.getLast_cons (by simp)).symm

theorem matInvQ_length (n : ℕ) (A Ainv : List (List ℚ)) (h : matInvQ n A = some Ainv) :
    Ainv.length = n := by
  simp only [matInvQ] at h
  by_cases hd : detQ n A = 0
  · rw [if_pos hd] at h
    exact absurd h (by simp)
  · rw [if_neg hd] at h
    simp only [Option.some.injEq] at h
    rw [← h]
    simp

theorem matMulVec_length (A : List (List ℚ)) (v : List ℚ) : (matMulVec A v).length = A.length := by
  simp [matMulVec]

theorem getD_replicate_zero (M j : ℕ) : (List.replicate M (0 : ℚ)).getD j 0 = 0 := by
  rw [List.getD_eq_getElem?_getD, List.getElem?_replicate]
  split <;> rfl

theorem phi_construction (M : ℕ) (initI : List ℕ) (lastI : ℕ) (w : List ℚ) (diff : ℚ)
    (hInd : initI.Nodup) (hlast : lastI < M) (hnotin : lastI ∉ initI)
    (hilt : ∀ j ∈ initI, j < M) (hwlen : w.length = initI.length) :
    ((scatterAt (List.replicate M 0) initI w).set lastI (diff - w.sum)).sum = diff
    ∧ ((scatterAt (List.replicate M 0) initI w).set lastI (diff - w.sum)).getD lastI 0
        = diff - w.sum
    ∧ ((scatterAt (List.replicate M 0) initI w).set lastI (diff - w.sum)).length = M := by
  obtain ⟨hl, hs, hu⟩ := scatter_spec initI w (List.replicate M 0) hInd
    (by
      intro j hj
      exact ⟨by rw [List.length_replicate]; exact hilt j hj, getD_replicate_zero M j⟩)
    hwlen
  rw [List.length_replicate] at hl
  have hrs : (List.replicate M (0 : ℚ)).sum = 0 := by simp
  refine ⟨?_, ?_, by rw [List.length_set, hl]⟩
  · rw [sum_set_eq _ lastI (by rw [hl]; exact hlast) _, hs, hrs, hu lastI hnotin,
      getD_replicate_zero]
    ring
  · exact getD_set_self_q _ lastI (by rw [hl]; exact hlast) _

theorem solveOut_result_mk (w s : Bool) (c : Option SelCall) (sup : List ℕ) (lq : Bool)
    (ws pp : List ℚ) (r : Option (List ℚ × List ℚ)) :
    (SolveOut.mk w s c sup lq ws pp r).result = r := rfl

theorem solveOut_phiPre_mk (w s : Bool) (c : Option SelCall) (sup : List ℕ) (lq : Bool)
    (ws pp : List ℚ) (r : Option (List ℚ × List ℚ)) :
    (SolveOut.mk w s c sup lq ws pp r).phiPre = pp := rfl

theorem solveOut_wSol_mk (w s : Bool) (c : Option SelCall) (sup : List ℕ) (lq : Bool)
    (ws pp : List ℚ) (r : Option (List ℚ × List ℚ)) :
    (SolveOut.mk w s c sup lq ws pp r).wSol = ws := rfl


theorem phi_construction_full (M : ℕ) (initI : List ℕ) (lastI : ℕ) (w : List ℚ) (diff : ℚ)
    (hInd : initI.Nodup) (hlast : lastI < M) (hnotin : lastI ∉ initI)
    (hilt : ∀ j ∈ initI, j < M) (hwlen : w.length = initI.length) :
    ((scatterAt (List.replicate M 0) initI w).set lastI (diff - w.sum)).sum = diff
    ∧ ((scatterAt (List.replicate M 0) initI w).set lastI (diff - w.sum)).getD lastI 0
        = diff - w.sum
    ∧ |((((scatterAt (List.replicate M 0) initI w).set lastI (diff - w.sum)).map
          (fun v => if |v| < 1 / 10000000000 then 0 else v)).sum) - diff|
        ≤ (M : ℚ) * (1 / 10000000000)
    ∧ (((scatterAt (List.replicate M 0) initI w).set lastI (diff - w.sum)).map
          (fun v => if |v| < 1 / 10000000000 then 0 else v)).length = M := by
  obtain ⟨h1, h2, h3⟩ := phi_construction M initI lastI w diff hInd hlast hnotin hilt hwlen
  refine ⟨h1, h2, ?_, by rw [List.length_map, h3]⟩
  have hb := cleanup_sum_bound (1 / 10000000000) (by norm_num)
    ((scatterAt (List.replicate M 0) initI w).set lastI (diff - w.sum))
  rw [h1, h3] at hb
  exact hb

theorem solve_sum_core (link : ℚ → ℚ) (fx fnull : List ℚ) (mm : List (List Bool))
    (kw : List ℚ) (M : ℕ) (l1reg : L1Reg) (sel : Selectors) (frac : ℚ) (dim : ℕ)
    (ey : List (List ℚ))
    (hnd : (solveNonzeroInds link fx fnull mm kw M l1reg sel frac dim ey).Nodup)
    (hlt : ∀ j ∈ solveNonzeroInds link fx fnull mm kw M l1reg sel frac dim ey, j < M)
    (hne : solveNonzeroInds link fx fnull mm kw M l1reg sel frac dim ey ≠ []) :
    ∀ pr, (solve link fx fnull mm kw M l1reg sel frac dim ey).result = some pr →
      (solve link fx fnull mm kw M l1reg sel frac dim ey).phiPre.sum
          = link (fx.getD dim 0) - link (fnull.getD dim 0)
      ∧ (solve link fx fnull mm kw M l1reg sel frac dim ey).phiPre.getD
            ((solveNonzeroInds link fx fnull mm kw M l1reg sel frac dim ey).getLastD 0) 0
          = (link (fx.getD dim 0) - link (fnull.getD dim 0))
            - (solve link fx fnull mm kw M l1reg sel frac dim ey).wSol.sum
      ∧ |pr.1.sum - (link (fx.getD dim 0) - link (fnull.getD dim 0))|
          ≤ (M : ℚ) * (1 / 10000000000)
      ∧ pr.1.length = M := by
  have hlast : (solveNonzeroInds link fx fnull mm kw M l1reg sel frac dim ey).getLastD 0 < M :=
    hlt _ (getLastD_mem _ hne 0)
  have hInd : (solveNonzeroInds link fx fnull mm kw M l1reg sel frac dim ey).dropLast.Nodup :=
    List.Nodup.sublist (List.dropLast_sublist _) hnd
  have hsplit : (solveNonzeroInds link fx fnull mm kw M l1reg sel frac dim ey).dropLast
      ++ [(solveNonzeroInds link fx fnull mm kw M l1reg sel frac dim ey).getLastD 0]
      = solveNonzeroInds link fx fnull mm kw M l1reg sel frac dim ey := by
    rw [getLastD_eq_getLast _ hne 0]
    exact List.dropLast_append_getLast hne
  have hnd2 := hnd
  rw [← hsplit] at hnd2
  obtain ⟨-, -, hdisj⟩ := List.nodup_append.mp hnd2
  have hnotin : (solveNonzeroInds link fx fnull mm kw M l1reg sel frac dim ey).getLastD 0
      ∉ (solveNonzeroInds link fx fnull mm kw M l1reg sel frac dim ey).dropLast :=
    fun hm => hdisj hm (List.mem_singleton.mpr rfl)
  have hilt : ∀ j ∈ (solveNonzeroInds link fx fnull mm kw M l1reg sel frac dim ey).dropLast,
      j < M := fun j hj => hlt j (List.dropLast_subset _ hj)
  intro pr hpr
  simp only [solve] at hpr ⊢
  rw [if_neg hne] at hpr ⊢
  split at hpr
  case _ heq =>
    rw [solveOut_result_mk] at hpr
    exact Option.noConfusion hpr
  case _ Ainv heq =>
    rw [solveOut_result_mk, Option.some.injEq] at hpr
    have hAl : Ainv.length
        = (solveNonzeroInds link fx fnull mm kw M l1reg sel frac dim ey).dropLast.length :=
      matInvQ_length _ _ _ heq
    have hWany : ∀ v : List ℚ, (matMulVec Ainv v).length
        = (solveNonzeroInds link fx fnull mm kw M l1reg sel frac dim ey).dropLast.length :=
      fun v => by rw [matMulVec_length, hAl]
    subst hpr
    exact phi_construction_full M _ _ _ _ hInd hlast hnotin hilt (hWany _)

theorem optList_eq {α : Type} :
    ∀ (l : List (Option α)) (res : List α), optList l = some res → l = res.map some := by
  intro l
  induction l with
  | nil =>
    intro res h
    simp only [optList, Option.some.injEq] at h
    rw [← h]
    rfl
  | cons o rest ih =>
    intro res h
    cases o with
    | none => simp [optList] at h
    | some a =>
      simp only [optList] at h
      cases hrest : optList rest with
      | none => rw [hrest] at h; simp at h
      | some r' =>
        rw [hrest] at h
        simp only [Option.map_some', Option.some.injEq] at h
        rw [← h, List.map_cons]
        rw [ih r' hrest]

theorem map_ite_sum (p : ℕ → Bool) (f : ℕ → ℚ) :
    ∀ (l : List ℕ),
      (l.map (fun g => if p g then f g else 0)).sum = ((l.filter p).map f).sum := by
  intro l
  induction l with
  | nil => rfl
  | cons a t ih =>
    by_cases hp : p a
    · simp only [List.map_cons, List.sum_cons, if_pos hp, List.filter_cons, hp, ite_true, ih]
    · simp only [List.map_cons, List.sum_cons, if_neg hp, List.filter_cons]
      rw [zero_add, ih]

theorem sum_scatter_back (G : ℕ) (q : ℕ → Bool) (φ : List ℚ) (vi : List ℕ)
    (hvi : vi = (List.range G).filter q) (hlen : φ.length = vi.length) :
    ((List.range G).map (fun g => if vi.contains g then φ.getD (vi.indexOf g) 0 else 0)).sum
      = φ.sum := by
  have hnd : vi.Nodup := hvi ▸ List.Nodup.filter _ (List.nodup_range G)
  rw [map_ite_sum (fun g => vi.contains g) (fun g => φ.getD (vi.indexOf g) 0) (List.range G)]
  have hfe : (List.range G).filter (fun g => vi.contains g) = vi := by
    conv_rhs => rw [hvi]
    apply List.filter_congr
    intro g hg
    have hce : vi.contains g = decide (g ∈ vi) := List.elem_eq_mem g vi
    rw [hce]
    by_cases hq : q g = true
    · simp [hvi, List.mem_filter, hg, hq]
    · simp [hvi, List.mem_filter, hq]
  rw [hfe]
  suffices h : vi.map (fun g => φ.getD (vi.indexOf g) 0) = φ by rw [h]
  apply List.ext_getElem (by simp [hlen])
  intro k h1 h2
  rw [List.getElem_map]
  have hk : k < vi.length := by simpa using h1
  rw [List.indexOf_getElem hnd k hk, getD_of_lt φ k h2]

theorem explainOut_phi_mk (a : Option (List (List ℚ))) (b c : Bool) :
    (ExplainOut.mk a b c).phi = a := rfl

theorem solveNonzeroInds_cases (link : ℚ → ℚ) (fx fnull : List ℚ) (mm : List (List Bool))
    (kw : List ℚ) (M : ℕ) (l1reg : L1Reg) (sel : Selectors) (frac : ℚ) (dim : ℕ)
    (ey : List (List ℚ)) :
    solveNonzeroInds link fx fnull mm kw M l1reg sel frac dim ey = List.range M
    ∨ (∃ A y wq r, solveNonzeroInds link fx fnull mm kw M l1reg sel frac dim ey
        = sel.larsPath A y wq r)
    ∨ (∃ A y wq c, solveNonzeroInds link fx fnull mm kw M l1reg sel frac dim ey
        = sel.lassoLarsIC A y wq c)
    ∨ (∃ A y wq a, solveNonzeroInds link fx fnull mm kw M l1reg sel frac dim ey
        = sel.lasso A y wq a) := by
  simp only [solveNonzeroInds]
  split
  · split
    · exact Or.inr (Or.inl ⟨_, _, _, _, rfl⟩)
    · exact Or.inr (Or.inr (Or.inl ⟨_, _, _, _, rfl⟩))
    · exact Or.inr (Or.inr (Or.inr ⟨_, _, _, _, rfl⟩))
  · exact Or.inl rfl

theorem solveNonzeroInds_valid (link : ℚ → ℚ) (fx fnull : List ℚ) (mm : List (List Bool))
    (kw : List ℚ) (M : ℕ) (l1reg : L1Reg) (sel : Selectors) (frac : ℚ) (dim : ℕ)
    (ey : List (List ℚ)) (hM : 2 ≤ M)
    (hsel : (∀ A y wq r, (sel.larsPath A y wq r).Nodup
        ∧ (∀ j ∈ sel.larsPath A y wq r, j < M) ∧ sel.larsPath A y wq r ≠ [])
      ∧ (∀ A y wq c, (sel.lassoLarsIC A y wq c).Nodup
        ∧ (∀ j ∈ sel.lassoLarsIC A y wq c, j < M) ∧ sel.lassoLarsIC A y wq c ≠ [])
      ∧ (∀ A y wq a, (sel.lasso A y wq a).Nodup
        ∧ (∀ j ∈ sel.lasso A y wq a, j < M) ∧ sel.lasso A y wq a ≠ [])) :
    (solveNonzeroInds link fx fnull mm kw M l1reg sel frac dim ey).Nodup
    ∧ (∀ j ∈ solveNonzeroInds link fx fnull mm kw M l1reg sel frac dim ey, j < M)
    ∧ solveNonzeroInds link fx fnull mm kw M l1reg sel frac dim ey ≠ [] := by
  obtain ⟨h1, h2, h3⟩ := hsel
  rcases solveNonzeroInds_cases link fx fnull mm kw M l1reg sel frac dim ey with
    hc | ⟨A, y, wq, r, hc⟩ | ⟨A, y, wq, c, hc⟩ | ⟨A, y, wq, a, hc⟩
  · rw [hc]
    refine ⟨List.nodup_range M, fun j hj => List.mem_range.mp hj, ?_⟩
    simp only [ne_eq, List.range_eq_nil]
    omega
  · rw [hc]; exact h1 A y wq r
  · rw [hc]; exact h2 A y wq c
  · rw [hc]; exact h3 A y wq a

theorem getD_lt_poly {α : Type} (l : List α) (j : ℕ) (d : α) (h : j < l.length) :
    l.getD j d = l[j] := by
  rw [List.getD_eq_getElem?_getD, List.getElem?_eq_getElem h, Option.getD_some]

/-- **C1** (corrected): for every instance on which the full
sampling-and-solve pipeline runs (at least two varying groups) with
selectors that return nonempty in-range supports, and for which the solve
succeeds, the returned attributions summed over all feature groups equal
`link(f(x))[d] - link(fnull)[d]` only up to the `1e-10` cleanup — within
`M * 1e-10` for every output dimension `d` — while the pre-cleanup
attribution vector sums to the difference exactly and the last selected
feature's coefficient is constructed as that difference minus the sum of
the regressed coefficients. -/
theorem explain_sum_to_total (f : List ℚ → List ℚ) (link : ℚ → ℚ) (bg : List (List ℚ))
    (bgW : List ℚ) (groups : List (List ℕ)) (x : List ℚ) (l1reg : L1Reg)
    (nsOpt : Option ℕ) (sel : Selectors) (indSet : List ℕ) (perms : List (List ℕ))
    (hM : 2 ≤ (varyingGroups x bg groups).length)
    (hsel : (∀ A y wq r, (sel.larsPath A y wq r).Nodup
        ∧ (∀ j ∈ sel.larsPath A y wq r, j < (varyingGroups x bg groups).length)
        ∧ sel.larsPath A y wq r ≠ [])
      ∧ (∀ A y wq c, (sel.lassoLarsIC A y wq c).Nodup
        ∧ (∀ j ∈ sel.lassoLarsIC A y wq c, j < (varyingGroups x bg groups).length)
        ∧ sel.lassoLarsIC A y wq c ≠ [])
      ∧ (∀ A y wq a, (sel.lasso A y wq a).Nodup
        ∧ (∀ j ∈ sel.lasso A y wq a, j < (varyingGroups x bg groups).length)
        ∧ sel.lasso A y wq a ≠ []))
    (P : List (List ℚ))
    (hphi : explain f link bg bgW groups x l1reg nsOpt sel indSet perms = some P) :
    (∀ d, d < (vecWeightedSum (bg.map f) bgW).length →
      |(P.map (fun row => row.getD d 0)).sum
          - (link ((f x).getD d 0) - link ((vecWeightedSum (bg.map f) bgW).getD d 0))|
        ≤ ((varyingGroups x bg groups).length : ℚ) * (1 / 10000000000))
    ∧ ∀ (link2 : ℚ → ℚ) (fx2 fnull2 : List ℚ) (mm2 : List (List Bool)) (kw2 : List ℚ)
        (M2 : ℕ) (l1b : L1Reg) (sel2 : Selectors) (frac2 : ℚ) (dim2 : ℕ)
        (ey2 : List (List ℚ)),
        (solveNonzeroInds link2 fx2 fnull2 mm2 kw2 M2 l1b sel2 frac2 dim2 ey2).Nodup →
        (∀ j ∈ solveNonzeroInds link2 fx2 fnull2 mm2 kw2 M2 l1b sel2 frac2 dim2 ey2,
          j < M2) →
        solveNonzeroInds link2 fx2 fnull2 mm2 kw2 M2 l1b sel2 frac2 dim2 ey2 ≠ [] →
        ∀ pr, (solve link2 fx2 fnull2 mm2 kw2 M2 l1b sel2 frac2 dim2 ey2).result = some pr →
          (solve link2 fx2 fnull2 mm2 kw2 M2 l1b sel2 frac2 dim2 ey2).phiPre.sum
              = link2 (fx2.getD dim2 0) - link2 (fnull2.getD dim2 0)
          ∧ (solve link2 fx2 fnull2 mm2 kw2 M2 l1b sel2 frac2 dim2 ey2).phiPre.getD
                ((solveNonzeroInds link2 fx2 fnull2 mm2 kw2 M2 l1b sel2
                  frac2 dim2 ey2).getLastD 0) 0
              = (link2 (fx2.getD dim2 0) - link2 (fnull2.getD dim2 0))
                - (solve link2 fx2 fnull2 mm2 kw2 M2 l1b sel2 frac2 dim2 ey2).wSol.sum := by
  constructor
  · intro d hd
    simp only [explain, explainFull] at hphi
    rw [if_neg (show ¬(varyingGroups x bg groups).length = 0 by omega),
      if_neg (show ¬(varyingGroups x bg groups).length = 1 by omega)] at hphi
    split at hphi
    case _ heq => rw [explainOut_phi_mk] at hphi; exact Option.noConfusion hphi
    case _ vphis heq =>
      rw [explainOut_phi_mk, Option.some.injEq] at hphi
      subst hphi
      have houts := optList_eq _ _ heq
      have hvl : vphis.length = (vecWeightedSum (bg.map f) bgW).length := by
        have hL := congrArg List.length houts
        simp only [List.length_map, List.length_range] at hL
        exact hL.symm
      have hd2 : d < vphis.length := by rw [hvl]; exact hd
      have hgd := congrArg (fun l => l.getD d none) houts
      simp only [List.map_map] at hgd
      rw [getD_map_range _ _ _ _ hd] at hgd
      rw [getD_lt_poly (vphis.map some) d none (by simpa using hd2),
        List.getElem_map] at hgd
      simp only [Function.comp_apply] at hgd
      rw [Option.map_eq_some'] at hgd
      obtain ⟨prd, hres, hfst⟩ := hgd
      have hcore := solve_sum_core _ _ _ _ _ _ _ _ _ _ _
        ((solveNonzeroInds_valid _ _ _ _ _ _ _ _ _ _ _ hM hsel).1)
        ((solveNonzeroInds_valid _ _ _ _ _ _ _ _ _ _ _ hM hsel).2.1)
        ((solveNonzeroInds_valid _ _ _ _ _ _ _ _ _ _ _ hM hsel).2.2)
        prd hres
      obtain ⟨-, -, hc3, hc4⟩ := hcore
      have hφ : vphis.getD d [] = prd.1 := by
        rw [getD_lt_poly vphis d [] hd2]
        exact hfst.symm
      rw [List.map_map]
      rw [show (List.range groups.length).map ((fun row => row.getD d 0)
            ∘ (fun g => (List.range (vecWeightedSum (bg.map f) bgW).length).map
              (fun dd => if (varyingGroups x bg groups).contains g
                then (vphis.getD dd []).getD ((varyingGroups x bg groups).indexOf g) 0
                else 0)))
          = (List.range groups.length).map
            (fun g => if (varyingGroups x bg groups).contains g
              then (vphis.getD d []).getD ((varyingGroups x bg groups).indexOf g) 0
              else 0) from List.map_congr_left
            (fun g _ => getD_map_range (vecWeightedSum (bg.map f) bgW).length _ d 0 hd)]
      simp only [hφ]
      rw [sum_scatter_back groups.length
        (fun i => bg.any (fun row =>
          (groups.getD i []).any (fun c => !isclose (x.getD c 0) (row.getD c 0))))
        prd.1 (varyingGroups x bg groups) rfl hc4]
      exact hc3
  · intro link2 fx2 fnull2 mm2 kw2 M2 l1b sel2 frac2 dim2 ey2 h1 h2 h3 pr hpr
    refine ⟨(solve_sum_core link2 fx2 fnull2 mm2 kw2 M2 l1b sel2 frac2 dim2 ey2
        h1 h2 h3 pr hpr).1,
      (solve_sum_core link2 fx2 fnull2 mm2 kw2 M2 l1b sel2 frac2 dim2 ey2
        h1 h2 h3 pr hpr).2.1⟩

/-- Counterexample to the literal sum-to-total claim: a two-feature instance
on which the pipeline runs, the solve succeeds with the full (nonempty)
support, yet the returned attributions summed over the feature groups differ
from `link(f(x)) - link(fnull)` — the `1e-10` cleanup zeroes a regressed
coefficient of `1e-11`, so the returned sum is `1 - 1e-11` while the
difference is exactly `1`. -/
theorem explain_sum_exact_refuted :
    (explain cxModel id [[0, 0]] [1] [[0], [1]] [1, 1] L1Reg.off none
        cxSelectors [] []).isSome = true
    ∧ ¬(((explain cxModel id [[0, 0]] [1] [[0], [1]] [1, 1] L1Reg.off none
          cxSelectors [] []).getD []).map (fun row => row.getD 0 0)).sum
        = id ((cxModel [1, 1]).getD 0 0)
          - id ((vecWeightedSum ([[0, 0]].map cxModel) [1]).getD 0 0) := by
  constructor
  · decide
  · decide

theorem explain_sum_to_total_witness :
    |(([[0], [1 - 1 / 100000000000]].map (fun row => row.getD 0 0)).sum
        - (id ((cxModel [1, 1]).getD 0 0)
          - id ((vecWeightedSum ([[0, 0]].map cxModel) [1]).getD 0 0)))|
      ≤ (((varyingGroups [1, 1] [[0, 0]] [[0], [1]]).length : ℚ) * (1 / 10000000000)) :=
  (explain_sum_to_total cxModel id [[0, 0]] [1] [[0], [1]] [1, 1] L1Reg.off none
    oneSelectors [] [] (by decide)
    ⟨fun _ _ _ _ => ⟨(by decide : ([0] : List ℕ).Nodup),
        (by decide : ∀ j ∈ ([0] : List ℕ),
          j < (varyingGroups [1, 1] [[0, 0]] [[0], [1]]).length),
        (by decide : ([0] : List ℕ) ≠ [])⟩,
     fun _ _ _ _ => ⟨(by decide : ([0] : List ℕ).Nodup),
        (by decide : ∀ j ∈ ([0] : List ℕ),
          j < (varyingGroups [1, 1] [[0, 0]] [[0], [1]]).length),
        (by decide : ([0] : List ℕ) ≠ [])⟩,
     fun _ _ _ _ => ⟨(by decide : ([0] : List ℕ).Nodup),
        (by decide : ∀ j ∈ ([0] : List ℕ),
          j < (varyingGroups [1, 1] [[0, 0]] [[0], [1]]).length),
        (by decide : ([0] : List ℕ) ≠ [])⟩⟩
    [[0], [1 - 1 / 100000000000]] (by decide)).1 0 (by decide)

theorem explain_degenerate_cases_witness :
    explainFull (fun _ => [0]) id [[0]] [1] [[0]] [0] L1Reg.off none cxSelectors [] []
      = ⟨some (zeroPhi ([[0]] : List (List ℕ)).length
          (vecWeightedSum (([[(0 : ℚ)]] : List (List ℚ)).map (fun _ => [0])) [1]).length),
        false, false⟩ :=
  ((explain_degenerate_cases (fun _ => [0]) id [[0]] [1] [[0]] [0] L1Reg.off none
    cxSelectors [] []).1 (by decide)).1

theorem enum_complement_pairing_witness :
    ∃ pre post, (enumPhase 4 12).rows
      = pre ++ (([true, false, false, false] : List Bool),
            (weightVector 4).getD (popcnt [true, false, false, false] - 1) 0
              / binomQ 4 (popcnt [true, false, false, false]) / 2)
          :: (maskNot [true, false, false, false],
              (weightVector 4).getD (popcnt [true, false, false, false] - 1) 0
                / binomQ 4 (popcnt [true, false, false, false]) / 2)
          :: post :=
  enum_complement_pairing 4 12 [true, false, false, false]
    (by decide) (by decide) (by decide) (by decide)

theorem samplePhase_masks_nodup_witness :
    ((samplePhase 4 12 [0] [[0, 1, 2, 3]]).rows.map Prod.fst).Nodup :=
  (samplePhase_masks_nodup 4 12 [0] [[0, 1, 2, 3]]
    (by decide) (by decide) (by decide) (by decide)).1

theorem samplePhase_weight_normalization_witness :
    (((samplePhase 4 12 [0, 0, 0, 0] [[0, 1, 2, 3], [1, 2, 3, 0], [0, 2, 1, 3],
          [2, 3, 0, 1]]).rows.drop
        (samplePhase 4 12 [0, 0, 0, 0] [[0, 1, 2, 3], [1, 2, 3, 0], [0, 2, 1, 3],
          [2, 3, 0, 1]]).nfixed).map Prod.snd).sum
      = ((weightVector 4).drop
          (samplePhase 4 12 [0, 0, 0, 0] [[0, 1, 2, 3], [1, 2, 3, 0], [0, 2, 1, 3],
            [2, 3, 0, 1]]).numFull).sum
    ∧ (((samplePhase 4 12 [0, 0, 0, 0] [[0, 1, 2, 3], [1, 2, 3, 0], [0, 2, 1, 3],
          [2, 3, 0, 1]]).rows.take
        (samplePhase 4 12 [0, 0, 0, 0] [[0, 1, 2, 3], [1, 2, 3, 0], [0, 2, 1, 3],
          [2, 3, 0, 1]]).nfixed).map Prod.snd).sum
      = ((weightVector 4).take
          (samplePhase 4 12 [0, 0, 0, 0] [[0, 1, 2, 3], [1, 2, 3, 0], [0, 2, 1, 3],
            [2, 3, 0, 1]]).numFull).sum
    ∧ ((samplePhase 4 12 [0, 0, 0, 0] [[0, 1, 2, 3], [1, 2, 3, 0], [0, 2, 1, 3],
          [2, 3, 0, 1]]).rows.map Prod.snd).sum = 1 :=
  samplePhase_weight_normalization 4 12 [0, 0, 0, 0]
    [[0, 1, 2, 3], [1, 2, 3, 0], [0, 2, 1, 3], [2, 3, 0, 1]] (by decide) (by decide)

theorem solve_empty_support_witness :
    (solve id [1] [0] [[true, false], [false, true]] [1 / 2, 1 / 2] 2 L1Reg.aic
        cxSelectors 0 0 [[0], [1]]).result
      = some (List.replicate 2 0, List.replicate 2 1)
    ∧ (solve id [1] [0] [[true, false], [false, true]] [1 / 2, 1 / 2] 2 L1Reg.aic
        cxSelectors 0 0 [[0], [1]]).lsqRun = false :=
  solve_empty_support id [1] [0] [[true, false], [false, true]] [1 / 2, 1 / 2] 2 L1Reg.aic
    cxSelectors 0 0 [[0], [1]] (by decide) (by decide)

theorem solve_selection_policy_witness :
    (solve id [1] [0] [[true, false], [false, true]] [1 / 2, 1 / 2] 2 L1Reg.auto
        cxSelectors 0 0 [[0], [1]]).warned = true :=
  (solve_selection_policy id [1] [0] [[true, false], [false, true]] [1 / 2, 1 / 2] 2
    L1Reg.auto cxSelectors 0 0 [[0], [1]]).2.1 rfl

theorem explain_deterministic_witness :
    explainFull cxModel id [[0, 0]] [1] [[0], [1]] [1, 1] L1Reg.off none cxSelectors [] []
      = explainFull cxModel id [[0, 0]] [1] [[0], [1]] [1, 1] L1Reg.off none
          cxSelectors [] [] :=
  explain_deterministic cxModel cxModel id id [[0, 0]] [[0, 0]] [1] [1] [[0], [1]]
    [[0], [1]] [1, 1] [1, 1] L1Reg.off L1Reg.off none none cxSelectors cxSelectors [] [] [] []
    rfl rfl rfl rfl rfl rfl rfl rfl rfl rfl rfl

theorem solve_variance_placeholder_witness :
    (List.replicate 2 (0 : ℚ), List.replicate 2 (1 : ℚ)).2 = List.replicate 2 (1 : ℚ) :=
  (solve_variance_placeholder id [1] [0] [[true, false], [false, true]] [1 / 2, 1 / 2] 2
    L1Reg.aic cxSelectors 0 0 [[0], [1]] cxModel id [[0, 0]] [1] [[0], [1]] [1, 1]
    L1Reg.off none cxSelectors [] []).1
    (List.replicate 2 0, List.replicate 2 1) (by decide)
